import Mathlib

/-!
# Verification development for `size` (Go package `size`, file `size.go`)

The package parses human readable byte quantities (`ParseSize`) and renders
them back (`Size.String`).  This file embeds the parser, the type `Size` and
its methods in Lean and settles the properties of their specification.

## Modelling conventions

* Go `string` values are Lean `String`s; the work is done on the list of
  characters `s.data`.
* The Go result `(int64, error)` is the pair `Int × Option String`: the second
  component is `none` for a `nil` error and `some msg` for an error whose
  message is `msg` (the errors are built by `fmt.Errorf`, so the message is all
  there is to them).
* an `int64` is an `Int` in the range `-2^63 ≤ i < 2^63`; the one operation
  that can leave the range, the negation in `Abs`, wraps around.
* `float64` is modelled exactly: a finite value is a sign, a significand and a
  binary exponent, and every operation is the exactly computed result rounded
  to nearest, ties to even (IEEE 754 binary64), all in integer arithmetic.
-/

namespace Size

/-! ## Constants of `size.go` -/

def BytesSuffix : String := "B"
def KilobytesSuffix : String := "KB"
def MegabytesSuffix : String := "MB"
def GigabytesSuffix : String := "GB"
def TerabytesSuffix : String := "TB"
def PetabytesSuffix : String := "PB"

def Kilobyte : Int := 1024
def Megabyte : Int := 1024 * Kilobyte
def Gigabyte : Int := 1024 * Megabyte
def Terabyte : Int := 1024 * Gigabyte
def Petabyte : Int := 1024 * Terabyte

/-! ## binary64 arithmetic -/

/-- A `float64` value.  `fin neg m e` is the finite number `(-1)^neg * m * 2^e`;
the values produced by the operations below are in IEEE form: `m < 2^53`,
`-1074 ≤ e ≤ 971`, and `2^52 ≤ m` unless `e = -1074` (subnormals and zero). -/
inductive F64 where
  | fin (neg : Bool) (m : Nat) (e : Int)
  | inf (neg : Bool)
  | nan
deriving DecidableEq, Repr

/-- The integer nearest to `N / D`, ties to the even one (`0 < D`). -/
def roundHalfEven (N D : Nat) : Nat :=
  let q := N / D
  let r := N % D
  if 2 * r < D then q
  else if D < 2 * r then q + 1
  else if q % 2 = 0 then q else q + 1

/-- Binary logarithm by repeated halving, at most `fuel` times. -/
def log2Aux : Nat → Nat → Nat
  | 0, _ => 0
  | fuel + 1, n => if n < 2 then 0 else log2Aux fuel (n / 2) + 1

/-- The exponent `k` with `2^k ≤ n < 2^(k+1)`, for `0 < n`. -/
def ilog2 (n : Nat) : Nat := log2Aux n n

/-- The exponent `k` with `2^k ≤ N / D < 2^(k+1)`, for `0 < N` and `0 < D`. -/
def floorLog2 (N D : Nat) : Int :=
  let k : Int := (ilog2 N : Int) - (ilog2 D : Int)
  if D * 2 ^ k.toNat ≤ N * 2 ^ (-k).toNat then k else k - 1

/-- Rounding to binary64: the `float64` nearest to `(-1)^neg * N / D` (`0 < D`),
ties to even, with gradual underflow (the exponent of the last place is never
below `-1074`) and overflow to infinity. -/
def F64.round (neg : Bool) (N D : Nat) : F64 :=
  if N = 0 then F64.fin neg 0 (-1074)
  else
    let e : Int := max (floorLog2 N D - 52) (-1074)
    let m := roundHalfEven (N * 2 ^ (-e).toNat) (D * 2 ^ e.toNat)
    let m1 := if m = 2 ^ 53 then 2 ^ 52 else m
    let e1 := if m = 2 ^ 53 then e + 1 else e
    if 971 < e1 then F64.inf neg else F64.fin neg m1 e1

/-- Conversion `float64(i)` of an integer. -/
def F64.ofInt (i : Int) : F64 :=
  F64.round (decide (i < 0)) i.natAbs 1

/-- The `float64` product `x * y`. -/
def F64.mul : F64 → F64 → F64
  | F64.fin s1 m1 e1, F64.fin s2 m2 e2 =>
      F64.round (xor s1 s2) (m1 * m2 * 2 ^ (e1 + e2).toNat) (2 ^ (-(e1 + e2)).toNat)
  | F64.fin s1 m1 _, F64.inf s2 => if m1 = 0 then F64.nan else F64.inf (xor s1 s2)
  | F64.inf s1, F64.fin s2 m2 _ => if m2 = 0 then F64.nan else F64.inf (xor s1 s2)
  | F64.inf s1, F64.inf s2 => F64.inf (xor s1 s2)
  | F64.nan, _ => F64.nan
  | _, F64.nan => F64.nan

/-- Conversion `int64(x)` of a `float64`: the value truncated toward zero.  When
the truncated value does not fit in an `int64` (or `x` is infinite or NaN) Go
leaves the result to the implementation; the amd64 result `-2^63` is used. -/
def F64.toInt64 : F64 → Int
  | F64.fin neg m e =>
      let t : Int := ((m * 2 ^ e.toNat / 2 ^ (-e).toNat : Nat) : Int)
      let v : Int := if neg then -t else t
      if -2 ^ 63 ≤ v ∧ v < 2 ^ 63 then v else -2 ^ 63
  | _ => -2 ^ 63

/-- The rational number a finite `float64` stands for (`0` for the others). -/
def F64.toRat : F64 → ℚ
  | F64.fin neg m e => (if neg then -1 else 1) * (m : ℚ) * (2 : ℚ) ^ e
  | _ => 0

/-! ## The regular expression and `strconv.ParseFloat` -/

/-- Character class `[0-9]`. -/
def isDigit (c : Char) : Bool := decide ('0' ≤ c ∧ c ≤ '9')

/-- Character class `[[:space:]]`: tab, line feed, vertical tab, form feed,
carriage return and space. -/
def isSpace (c : Char) : Bool :=
  c = '\t' || c = '\n' || c = Char.ofNat 11 || c = Char.ofNat 12 || c = '\r' || c = ' '

/-- Character class `[KkMmGgTtPp]`. -/
def isUnitLetter (c : Char) : Bool :=
  c = 'K' || c = 'k' || c = 'M' || c = 'm' || c = 'G' || c = 'g' ||
  c = 'T' || c = 't' || c = 'P' || c = 'p'

/-- Group 2 of the expression, `(\.[0-9]+)?`, at the head of `r`: the text it
captures (empty when the group takes no part in the match) and what is left. -/
def scanFraction (r : List Char) : List Char × List Char :=
  match r with
  | '.' :: t =>
      if t.takeWhile isDigit = [] then ([], r)
      else ('.' :: t.takeWhile isDigit, t.dropWhile isDigit)
  | _ => ([], r)

/-- Group 3 of the expression, `([KkMmGgTtPp]?B?)`, at the head of `r`. -/
def scanUnit (r : List Char) : List Char × List Char :=
  let p1 : List Char × List Char :=
    match r with
    | c :: t => if isUnitLetter c then ([c], t) else ([], r)
    | [] => ([], r)
  match p1.2 with
  | 'B' :: t => (p1.1 ++ ['B'], t)
  | _ => (p1.1, p1.2)

/-- The call `reg.FindStringSubmatch(s)` for the expression
`^([0-9]+(\.[0-9]+)?)[[:space:]]*([KkMmGgTtPp]?B?)$`: the empty list when `s`
does not match, and otherwise the whole match followed by the texts of the
three groups.  The expression is anchored at both ends and every character can
be consumed by one of its parts only, so the greedy left to right scan is
the match. -/
def FindStringSubmatch (s : String) : List String :=
  let cs := s.data
  let ip := cs.takeWhile isDigit
  if ip = [] then []
  else
    let f := scanFraction (cs.dropWhile isDigit)
    let u := scanUnit (f.2.dropWhile isSpace)
    if u.2 = [] then [s, String.mk (ip ++ f.1), String.mk f.1, String.mk u.1]
    else []

/-- Value of a run of decimal digits. -/
def digitsValue (cs : List Char) : Nat :=
  cs.foldl (fun acc c => 10 * acc + (c.toNat - 48)) 0

/-- The call `strconv.ParseFloat(s, 64)` on the texts `[0-9]+(\.[0-9]+)?` (the
only ones group 1 of the expression yields): the nearest `float64`, or
`none` for the range error reported when the text rounds to infinity.  Any
other text is answered `none` here. -/
def ParseFloat (s : String) : Option F64 :=
  let cs := s.data
  let ip := cs.takeWhile isDigit
  let r := cs.dropWhile isDigit
  let fp := r.drop 1
  if ip ≠ [] ∧ (r = [] ∨ (r = '.' :: fp ∧ fp ≠ [] ∧ fp.all isDigit)) then
    match F64.round false (digitsValue (ip ++ fp)) (10 ^ fp.length) with
    | F64.fin neg m e => some (F64.fin neg m e)
    | _ => none
  else none

/-- The call `strings.ToUpper(s)` (on the ASCII letters, all that group 3 of
the expression can hold). -/
def ToUpper (s : String) : String := String.mk (s.data.map Char.toUpper)

/-! ## `ParseSize` -/

/-- The function `ParseSize` of `size.go`. -/
def ParseSize (s : String) : Int × Option String :=
  let ms := FindStringSubmatch s
  if ms.length ≠ 4 then (0, some ("invalid size: " ++ s))
  else
    match ParseFloat (ms.getD 1 "") with
    | none => (0, some ("invalid size: " ++ s))
    | some number =>
      let u := ToUpper (ms.getD 3 "")
      if u = "K" ∨ u = "KB" then ((F64.mul number (F64.ofInt Kilobyte)).toInt64, none)
      else if u = "M" ∨ u = "MB" then ((F64.mul number (F64.ofInt Megabyte)).toInt64, none)
      else if u = "G" ∨ u = "GB" then ((F64.mul number (F64.ofInt Gigabyte)).toInt64, none)
      else if u = "T" ∨ u = "TB" then ((F64.mul number (F64.ofInt Terabyte)).toInt64, none)
      else if u = "P" ∨ u = "PB" then ((F64.mul number (F64.ofInt Petabyte)).toInt64, none)
      else if u = "B" ∨ u = "" then (number.toInt64, none)
      else (0, some ("invalid size suffix: " ++ ms.getD 3 ""))


/-! ## The grammar, stated on its own -/

/-- One or more decimal digits: `[0-9]+`. -/
def isDigits (l : List Char) : Bool := !l.isEmpty && l.all isDigit

/-- Nothing, or a point and one or more decimal digits: `(\.[0-9]+)?`. -/
def isFractionText (l : List Char) : Bool :=
  match l with
  | [] => true
  | c :: t => c = '.' && isDigits t

/-- A run of characters of `[[:space:]]`. -/
def isSpaces (l : List Char) : Bool := l.all isSpace

/-- The texts of `[KkMmGgTtPp]?B?`. -/
def isUnitText (l : List Char) : Bool :=
  match l with
  | [] => true
  | [c] => c = 'B' || isUnitLetter c
  | [c, d] => isUnitLetter c && d = 'B'
  | _ => false

/-- The unit tokens of the specification, in upper case. -/
def unitTokens : List String :=
  ["", "B", "K", "KB", "M", "MB", "G", "GB", "T", "TB", "P", "PB"]

/-- The multiplier the specification gives to a unit token: 1 for bytes (`B`
or nothing) and the powers of 1024 for `K`, `M`, `G`, `T`, `P`, with or
without a `B`. -/
def unitMultiplier (u : String) : Nat :=
  if u = "K" ∨ u = "KB" then 1024
  else if u = "M" ∨ u = "MB" then 1024 ^ 2
  else if u = "G" ∨ u = "GB" then 1024 ^ 3
  else if u = "T" ∨ u = "TB" then 1024 ^ 4
  else if u = "P" ∨ u = "PB" then 1024 ^ 5
  else 1

/-- The number that the text `ip ++ fp` denotes, `ip` being the integer digits
and `fp` the fraction with its point (or nothing). -/
def decimalValue (ip fp : List Char) : ℚ :=
  (digitsValue (ip ++ fp.drop 1) : ℚ) / (10 : ℚ) ^ (fp.drop 1).length

/-- The `switch` statement of `ParseSize` on its own: `number` is the parsed
number and `g3` the text of group 3. -/
def unitSwitch (number : F64) (g3 : String) : Int × Option String :=
  let u := ToUpper g3
  if u = "K" ∨ u = "KB" then ((F64.mul number (F64.ofInt Kilobyte)).toInt64, none)
  else if u = "M" ∨ u = "MB" then ((F64.mul number (F64.ofInt Megabyte)).toInt64, none)
  else if u = "G" ∨ u = "GB" then ((F64.mul number (F64.ofInt Gigabyte)).toInt64, none)
  else if u = "T" ∨ u = "TB" then ((F64.mul number (F64.ofInt Terabyte)).toInt64, none)
  else if u = "P" ∨ u = "PB" then ((F64.mul number (F64.ofInt Petabyte)).toInt64, none)
  else if u = "B" ∨ u = "" then (number.toInt64, none)
  else (0, some ("invalid size suffix: " ++ g3))

/-- The characters of the inputs the grammar claim is about: decimal digits,
the point, the space character and the ASCII letters. -/
def isPlainChar (c : Char) : Bool := isDigit c || c = '.' || c = ' ' || c.isAlpha

/-- The grammar as the specification words it: one or more digits, optionally
a point and one or more digits; then `k` space characters; then a text that is
one of the unit tokens once put in upper case. -/
def SpecGrammar (s : String) : Prop :=
  ∃ (ip fp : List Char) (k : Nat) (un : List Char), isDigits ip = true ∧
    isFractionText fp = true ∧ ToUpper (String.mk un) ∈ unitTokens ∧
    s.data = ip ++ fp ++ List.replicate k ' ' ++ un

/-! ## The type `Size` and its methods

A `Size` is an `int64`; it is an `Int` here, and the statements take it in
the range `-2^63 ≤ s < 2^63`. -/

/-- Wrap-around of `int64` arithmetic: the value in `[-2^63, 2^63)` congruent
to `i` modulo `2^64`. -/
def wrapInt64 (i : Int) : Int := (i + 2 ^ 63) % 2 ^ 64 - 2 ^ 63

/-- The `float64` quotient `x / y`. -/
def F64.div : F64 → F64 → F64
  | F64.fin s1 m1 e1, F64.fin s2 m2 e2 =>
      if m2 = 0 then (if m1 = 0 then F64.nan else F64.inf (xor s1 s2))
      else F64.round (xor s1 s2) (m1 * 2 ^ e1.toNat * 2 ^ (-e2).toNat)
        (m2 * 2 ^ e2.toNat * 2 ^ (-e1).toNat)
  | F64.fin s1 _ _, F64.inf s2 => F64.fin (xor s1 s2) 0 (-1074)
  | F64.inf s1, F64.fin s2 _ _ => F64.inf (xor s1 s2)
  | F64.inf _, F64.inf _ => F64.nan
  | F64.nan, _ => F64.nan
  | _, F64.nan => F64.nan

/-- The method `Size.Bytes`. -/
def Bytes (s : Int) : Int := s

/-- The method `Size.Kilobytes`. -/
def Kilobytes (s : Int) : F64 := F64.div (F64.ofInt s) (F64.ofInt Kilobyte)

/-- The method `Size.Megabytes`. -/
def Megabytes (s : Int) : F64 := F64.div (F64.ofInt s) (F64.ofInt Megabyte)

/-- The method `Size.Gigabytes`. -/
def Gigabytes (s : Int) : F64 := F64.div (F64.ofInt s) (F64.ofInt Gigabyte)

/-- The method `Size.Terabytes`. -/
def Terabytes (s : Int) : F64 := F64.div (F64.ofInt s) (F64.ofInt Terabyte)

/-- The method `Size.Petabytes`. -/
def Petabytes (s : Int) : F64 := F64.div (F64.ofInt s) (F64.ofInt Petabyte)

/-- The method `Size.Abs`; the negation `-s` is that of `int64`. -/
def Abs (s : Int) : Int := if s < 0 then wrapInt64 (-s) else s

/-- The verb `%d` of `fmt.Sprintf` on an `int64`. -/
def FormatInt (i : Int) : String :=
  if i < 0 then "-" ++ Nat.repr i.natAbs else Nat.repr i.natAbs

/-- The number of hundredths `R`, written with two decimal places. -/
def twoDecimals (R : Nat) : String :=
  Nat.repr (R / 100) ++ "." ++ String.mk [Nat.digitChar (R / 10 % 10), Nat.digitChar (R % 10)]

/-- The verb `%.2f` of `fmt.Sprintf` on a `float64`: the exact value rounded to
the nearest hundredth, ties to even, with the sign of the `float64`. -/
def FormatFloat2 : F64 → String
  | F64.fin neg m e =>
      (if neg then "-" else "") ++
        twoDecimals (roundHalfEven (m * 2 ^ e.toNat * 100) (2 ^ (-e).toNat))
  | F64.inf neg => if neg then "-Inf" else "+Inf"
  | F64.nan => "NaN"

/-- The method `Size.String` (named `SizeString` so that `String` remains the
type of strings). -/
def SizeString (s : Int) : String :=
  let abs := Abs s
  if abs < Kilobyte then FormatInt (Bytes s) ++ " " ++ BytesSuffix
  else if abs < Megabyte then FormatFloat2 (Kilobytes s) ++ " " ++ KilobytesSuffix
  else if abs < Gigabyte then FormatFloat2 (Megabytes s) ++ " " ++ MegabytesSuffix
  else if abs < Terabyte then FormatFloat2 (Gigabytes s) ++ " " ++ GigabytesSuffix
  else if abs < Petabyte then FormatFloat2 (Terabytes s) ++ " " ++ TerabytesSuffix
  else FormatFloat2 (Petabytes s) ++ " " ++ PetabytesSuffix

/-- The text `out` ends in the text `suf`. -/
def endsIn (out suf : String) : Prop := suf.data <:+ out.data

/-- The unit of the bracket of an absolute value `n ≥ 1024`, as the
specification gives it: the multiplier and the two-letter suffix. -/
def bracketUnit (n : Nat) : Nat × String :=
  if n < 1024 ^ 2 then (1024, "KB")
  else if n < 1024 ^ 3 then (1024 ^ 2, "MB")
  else if n < 1024 ^ 4 then (1024 ^ 3, "GB")
  else if n < 1024 ^ 5 then (1024 ^ 4, "TB")
  else (1024 ^ 5, "PB")

set_option maxRecDepth 100000

/-! ## Lemmas on the scan -/

theorem isDigits_iff (l : List Char) :
    isDigits l = true ↔ l ≠ [] ∧ ∀ c ∈ l, isDigit c = true := by
  cases l <;> simp [isDigits]

theorem takeWhile_stop {p : Char → Bool} (l r : List Char) (hl : ∀ c ∈ l, p c = true)
    (hr : ∀ c t, r = c :: t → p c = false) : (l ++ r).takeWhile p = l := by
  rw [List.takeWhile_append_of_pos hl]
  cases r with
  | nil => simp
  | cons c t => simp [List.takeWhile_cons, hr c t rfl]

theorem dropWhile_stop {p : Char → Bool} (l r : List Char) (hl : ∀ c ∈ l, p c = true)
    (hr : ∀ c t, r = c :: t → p c = false) : (l ++ r).dropWhile p = r := by
  rw [List.dropWhile_append_of_pos hl]
  cases r with
  | nil => simp
  | cons c t => simp [List.dropWhile_cons, hr c t rfl]

theorem isFractionText_head {fp : List Char} (h : isFractionText fp = true) (c : Char)
    (t : List Char) (e : fp = c :: t) : c = '.' ∧ isDigits t = true := by
  subst e
  simpa [isFractionText] using h

theorem isUnitText_head {un : List Char} (h : isUnitText un = true) (c : Char)
    (t : List Char) (e : un = c :: t) : c = 'B' ∨ isUnitLetter c = true := by
  subst e
  cases t with
  | nil => simpa [isUnitText] using h
  | cons d t2 =>
    cases t2 with
    | nil =>
      simp [isUnitText] at h
      exact Or.inr h.1
    | cons _ _ => simp [isUnitText] at h

theorem not_digit_of_unit {c : Char} (h : c = 'B' ∨ isUnitLetter c = true) :
    isDigit c = false := by
  rcases h with h | h
  · subst h; decide
  · simp only [isUnitLetter, Bool.or_eq_true, decide_eq_true_eq] at h
    rcases h with ((((((((h | h) | h) | h) | h) | h) | h) | h) | h) | h <;> subst h <;> decide

theorem not_space_of_unit {c : Char} (h : c = 'B' ∨ isUnitLetter c = true) :
    isSpace c = false := by
  rcases h with h | h
  · subst h; decide
  · simp only [isUnitLetter, Bool.or_eq_true, decide_eq_true_eq] at h
    rcases h with ((((((((h | h) | h) | h) | h) | h) | h) | h) | h) | h <;> subst h <;> decide

theorem not_dot_of_unit {c : Char} (h : c = 'B' ∨ isUnitLetter c = true) : c ≠ '.' := by
  rcases h with h | h
  · subst h; decide
  · simp only [isUnitLetter, Bool.or_eq_true, decide_eq_true_eq] at h
    rcases h with ((((((((h | h) | h) | h) | h) | h) | h) | h) | h) | h <;> subst h <;> decide

theorem not_digit_of_space {c : Char} (h : isSpace c = true) : isDigit c = false := by
  simp only [isSpace, Bool.or_eq_true, decide_eq_true_eq] at h
  rcases h with ((((h | h) | h) | h) | h) | h <;> subst h <;> decide

theorem not_dot_of_space {c : Char} (h : isSpace c = true) : c ≠ '.' := by
  simp only [isSpace, Bool.or_eq_true, decide_eq_true_eq] at h
  rcases h with ((((h | h) | h) | h) | h) | h <;> subst h <;> decide

theorem scanUnit_unitText {un : List Char} (h : isUnitText un = true) :
    scanUnit un = (un, []) := by
  match un, h with
  | [], _ => rfl
  | [c], h =>
    simp only [isUnitText, Bool.or_eq_true, decide_eq_true_eq] at h
    rcases h with h | h
    · subst h; rfl
    · by_cases hB : c = 'B'
      · subst hB; rfl
      · simp [scanUnit, h]
  | [c, d], h =>
    simp only [isUnitText, Bool.and_eq_true, decide_eq_true_eq] at h
    obtain ⟨h1, h2⟩ := h
    subst h2
    simp [scanUnit, h1]
  | _ :: _ :: _ :: _, h => simp [isUnitText] at h

theorem all_of_isDigits {l : List Char} (h : isDigits l = true) :
    ∀ c ∈ l, isDigit c = true := ((isDigits_iff l).1 h).2

theorem all_of_isSpaces {l : List Char} (h : isSpaces l = true) :
    ∀ c ∈ l, isSpace c = true := by
  simpa [isSpaces] using h

theorem dot_not_digit : isDigit '.' = false := by decide

/-- What can stand right after the integer digits is not a digit, as long as the
text after the spaces starts with something else than a digit. -/
theorem tail_head_not_digit {fp ws un : List Char} (hfp : isFractionText fp = true)
    (hws : isSpaces ws = true) (hun : ∀ c t, un = c :: t → isDigit c = false) :
    ∀ c t, fp ++ ws ++ un = c :: t → isDigit c = false := by
  intro c t e
  cases fp with
  | cons a fr =>
    have := (isFractionText_head hfp a fr rfl).1
    simp only [List.cons_append, List.cons.injEq] at e
    rw [← e.1, this]; exact dot_not_digit
  | nil =>
    cases ws with
    | cons a w =>
      simp only [List.nil_append, List.cons_append, List.cons.injEq] at e
      rw [← e.1]
      exact not_digit_of_space (all_of_isSpaces hws a (List.mem_cons_self _ _))
    | nil =>
      simp only [List.nil_append] at e
      exact hun c t e

theorem tail_head_not_dot {ws un : List Char}
    (hws : isSpaces ws = true) (hun : ∀ c t, un = c :: t → c ≠ '.') :
    ∀ c t, ws ++ un = c :: t → c ≠ '.' := by
  intro c t e
  cases ws with
  | cons a w =>
    simp only [List.cons_append, List.cons.injEq] at e
    rw [← e.1]
    exact not_dot_of_space (all_of_isSpaces hws a (List.mem_cons_self _ _))
  | nil =>
    simp only [List.nil_append] at e
    exact hun c t e

theorem scanFraction_scan {fp ws un : List Char} (hfp : isFractionText fp = true)
    (hws : isSpaces ws = true) (hun1 : ∀ c t, un = c :: t → isDigit c = false)
    (hun2 : ∀ c t, un = c :: t → c ≠ '.') :
    scanFraction (fp ++ ws ++ un) = (fp, ws ++ un) := by
  cases fp with
  | nil =>
    have hd := tail_head_not_dot hws hun2
    simp only [List.nil_append]
    generalize ws ++ un = r at hd
    cases r with
    | nil => rfl
    | cons c t =>
      have hc : c ≠ '.' := hd c t rfl
      unfold scanFraction
      split
      · rename_i t2 heq
        simp only [List.cons.injEq] at heq
        exact absurd heq.1 hc
      · rfl
  | cons a fr =>
    obtain ⟨ha, hfr⟩ := isFractionText_head hfp a fr rfl
    subst ha
    have hne := ((isDigits_iff fr).1 hfr).1
    have hall := all_of_isDigits hfr
    have hstop : ∀ c t, ws ++ un = c :: t → isDigit c = false := by
      intro c t e
      exact tail_head_not_digit (rfl : isFractionText [] = true) hws hun1 c t (by simpa using e)
    have e1 : (fr ++ (ws ++ un)).takeWhile isDigit = fr := takeWhile_stop fr _ hall hstop
    have e2 : (fr ++ (ws ++ un)).dropWhile isDigit = ws ++ un := dropWhile_stop fr _ hall hstop
    simp only [List.cons_append, List.append_assoc, scanFraction, e1, e2, hne, if_false]

/-- The scan of a number, spaces, and a rest `un` that starts with something
else than a digit, a point or a space: all hangs on whether group 3 takes the
whole of `un`. -/
theorem FindStringSubmatch_scan {ip fp ws un : List Char} (hip : isDigits ip = true)
    (hfp : isFractionText fp = true) (hws : isSpaces ws = true)
    (hun : ∀ c t, un = c :: t → isDigit c = false ∧ isSpace c = false ∧ c ≠ '.') :
    FindStringSubmatch (String.mk (ip ++ fp ++ ws ++ un)) =
      if (scanUnit un).2 = [] then
        [String.mk (ip ++ fp ++ ws ++ un), String.mk (ip ++ fp), String.mk fp,
          String.mk (scanUnit un).1]
      else [] := by
  have hne := ((isDigits_iff ip).1 hip).1
  have hall := all_of_isDigits hip
  have hun1 : ∀ c t, un = c :: t → isDigit c = false := fun c t e => (hun c t e).1
  have hun2 : ∀ c t, un = c :: t → c ≠ '.' := fun c t e => (hun c t e).2.2
  have hstop := tail_head_not_digit hfp hws hun1
  have e0 : ip ++ fp ++ ws ++ un = ip ++ (fp ++ ws ++ un) := by simp
  have e1 : (ip ++ (fp ++ ws ++ un)).takeWhile isDigit = ip := takeWhile_stop ip _ hall hstop
  have e2 : (ip ++ (fp ++ ws ++ un)).dropWhile isDigit = fp ++ ws ++ un :=
    dropWhile_stop ip _ hall hstop
  have e3 := scanFraction_scan hfp hws hun1 hun2
  have e4 : (ws ++ un).dropWhile isSpace = un :=
    dropWhile_stop ws un (all_of_isSpaces hws) (fun c t e => (hun c t e).2.1)
  unfold FindStringSubmatch
  simp only [e0, e1, e2, e3, e4, hne, if_false]

theorem unitText_head_ok {un : List Char} (hun : isUnitText un = true) :
    ∀ c t, un = c :: t → isDigit c = false ∧ isSpace c = false ∧ c ≠ '.' := by
  intro c t e
  have h := isUnitText_head hun c t e
  exact ⟨not_digit_of_unit h, not_space_of_unit h, not_dot_of_unit h⟩

/-- Completeness of the scan: a text built by the grammar is matched, and the
groups are its parts. -/
theorem FindStringSubmatch_grammar {ip fp ws un : List Char} (hip : isDigits ip = true)
    (hfp : isFractionText fp = true) (hws : isSpaces ws = true)
    (hun : isUnitText un = true) :
    FindStringSubmatch (String.mk (ip ++ fp ++ ws ++ un)) =
      [String.mk (ip ++ fp ++ ws ++ un), String.mk (ip ++ fp), String.mk fp,
        String.mk un] := by
  rw [FindStringSubmatch_scan hip hfp hws (unitText_head_ok hun), scanUnit_unitText hun]
  simp

theorem scanFraction_spec (r : List Char) :
    isFractionText (scanFraction r).1 = true ∧ r = (scanFraction r).1 ++ (scanFraction r).2 := by
  unfold scanFraction
  split
  · rename_i t
    split
    · simp [isFractionText]
    · rename_i hne
      refine ⟨?_, ?_⟩
      · simp only [isFractionText, decide_True, Bool.true_and]
        rw [isDigits_iff]
        exact ⟨hne, fun c hc => List.mem_takeWhile_imp hc⟩
      · simp
  · simp [isFractionText]

theorem scanUnit_spec (r : List Char) :
    isUnitText (scanUnit r).1 = true ∧ r = (scanUnit r).1 ++ (scanUnit r).2 := by
  unfold scanUnit
  cases r with
  | nil => simp [isUnitText]
  | cons c t =>
    by_cases hc : isUnitLetter c = true
    · simp only [hc, if_true]
      cases t with
      | nil => simp [isUnitText, hc]
      | cons d t2 =>
        by_cases hd : d = 'B'
        · subst hd; simp [isUnitText, hc]
        · split
          · rename_i t3 heq
            simp only [List.cons.injEq] at heq
            exact absurd heq.1 hd
          · simp [isUnitText, hc]
    · simp only [hc]
      by_cases hB : c = 'B'
      · subst hB; simp [isUnitText]
      · split
        · rename_i t3 heq
          simp only [Bool.false_eq_true, if_false, List.cons.injEq] at heq
          exact absurd heq.1 hB
        · simp [isUnitText]

/-- Soundness of the scan: a match has four entries, and they are the parts of
a text built by the grammar. -/
theorem FindStringSubmatch_sound (s : String) (h : (FindStringSubmatch s).length = 4) :
    ∃ ip fp ws un : List Char, isDigits ip = true ∧ isFractionText fp = true ∧
      isSpaces ws = true ∧ isUnitText un = true ∧ s.data = ip ++ fp ++ ws ++ un ∧
      FindStringSubmatch s = [s, String.mk (ip ++ fp), String.mk fp, String.mk un] := by
  unfold FindStringSubmatch at h ⊢
  by_cases h1 : s.data.takeWhile isDigit = []
  · simp [h1] at h
  · simp only [h1, if_false] at h ⊢
    by_cases h2 : (scanUnit ((scanFraction (s.data.dropWhile isDigit)).2.dropWhile isSpace)).2 = []
    · simp only [h2, if_true]
      obtain ⟨f1, f2⟩ := scanFraction_spec (s.data.dropWhile isDigit)
      obtain ⟨u1, u2⟩ :=
        scanUnit_spec ((scanFraction (s.data.dropWhile isDigit)).2.dropWhile isSpace)
      rw [h2, List.append_nil] at u2
      refine ⟨s.data.takeWhile isDigit, (scanFraction (s.data.dropWhile isDigit)).1,
        (scanFraction (s.data.dropWhile isDigit)).2.takeWhile isSpace,
        (scanUnit ((scanFraction (s.data.dropWhile isDigit)).2.dropWhile isSpace)).1,
        ?_, f1, ?_, u1, ?_, rfl⟩
      · rw [isDigits_iff]
        exact ⟨h1, fun c hc => List.mem_takeWhile_imp hc⟩
      · simp only [isSpaces, List.all_eq_true]
        exact fun c hc => List.mem_takeWhile_imp hc
      · rw [← u2, List.append_assoc, List.append_assoc, List.takeWhile_append_dropWhile,
          ← f2, List.takeWhile_append_dropWhile]
    · simp [h2] at h

/-! ## Lemmas on rounding -/

theorem log2Aux_spec (fuel : Nat) : ∀ n : Nat, 0 < n → n ≤ fuel →
    2 ^ log2Aux fuel n ≤ n ∧ n < 2 ^ (log2Aux fuel n + 1) := by
  induction fuel with
  | zero => intro n h0 h1; omega
  | succ f ih =>
    intro n h0 h1
    unfold log2Aux
    by_cases h2 : n < 2
    · simp only [h2, if_true]
      omega
    · simp only [h2, if_false]
      obtain ⟨a, b⟩ := ih (n / 2) (by omega) (by omega)
      rw [pow_succ] at b ⊢
      rw [pow_succ]
      constructor <;> omega

theorem ilog2_spec (n : Nat) (h : 0 < n) : 2 ^ ilog2 n ≤ n ∧ n < 2 ^ (ilog2 n + 1) :=
  log2Aux_spec n n h (le_refl n)

theorem two_zpow_split (e : Int) :
    (2 : ℚ) ^ e = (2 : ℚ) ^ e.toNat / (2 : ℚ) ^ (-e).toNat := by
  rcases le_total 0 e with h | h
  · have h1 : (-e).toNat = 0 := by omega
    have h2 : ((e.toNat : Int)) = e := Int.toNat_of_nonneg h
    rw [h1, pow_zero, div_one, ← zpow_natCast, h2]
  · have h1 : e.toNat = 0 := by omega
    have h2 : (((-e).toNat : Int)) = -e := Int.toNat_of_nonneg (by omega)
    rw [h1, pow_zero, one_div, ← zpow_natCast, h2, zpow_neg, inv_inv]

/-- The scaled quotient used by the rounding is the number divided by `2^e`. -/
theorem scaled_eq (N D : Nat) (e : Int) :
    ((N * 2 ^ (-e).toNat : Nat) : ℚ) / ((D * 2 ^ e.toNat : Nat) : ℚ) =
      (N : ℚ) / (D : ℚ) / (2 : ℚ) ^ e := by
  rw [two_zpow_split e]
  push_cast
  have h1 : ((2 : ℚ) ^ e.toNat) ≠ 0 := by positivity
  have h2 : ((2 : ℚ) ^ (-e).toNat) ≠ 0 := by positivity
  by_cases hD : (D : ℚ) = 0
  · simp [hD]
  · field_simp

theorem floorLog2_spec (N D : Nat) (hN : 0 < N) (hD : 0 < D) :
    (2 : ℚ) ^ floorLog2 N D ≤ (N : ℚ) / D ∧ (N : ℚ) / D < (2 : ℚ) ^ (floorLog2 N D + 1) := by
  obtain ⟨a1, a2⟩ := ilog2_spec N hN
  obtain ⟨b1, b2⟩ := ilog2_spec D hD
  have hDq : (0 : ℚ) < D := by exact_mod_cast hD
  have a1q : ((2 : ℚ) ^ ilog2 N) ≤ N := by exact_mod_cast a1
  have a2q : (N : ℚ) < (2 : ℚ) ^ (ilog2 N + 1) := by exact_mod_cast a2
  have b1q : ((2 : ℚ) ^ ilog2 D) ≤ D := by exact_mod_cast b1
  have b2q : (D : ℚ) < (2 : ℚ) ^ (ilog2 D + 1) := by exact_mod_cast b2
  have two : (2 : ℚ) ≠ 0 := by norm_num
  -- the two outer bounds
  have up : (N : ℚ) / D < (2 : ℚ) ^ ((ilog2 N : Int) - (ilog2 D : Int) + 1) := by
    rw [div_lt_iff₀ hDq]
    have e : (2 : ℚ) ^ ((ilog2 N : Int) - (ilog2 D : Int) + 1) * (2 : ℚ) ^ ilog2 D =
        (2 : ℚ) ^ (ilog2 N + 1) := by
      rw [← zpow_natCast, ← zpow_natCast, ← zpow_add₀ two]
      congr 1
      push_cast
      ring
    calc (N : ℚ) < (2 : ℚ) ^ (ilog2 N + 1) := a2q
      _ = (2 : ℚ) ^ ((ilog2 N : Int) - (ilog2 D : Int) + 1) * (2 : ℚ) ^ ilog2 D := e.symm
      _ ≤ (2 : ℚ) ^ ((ilog2 N : Int) - (ilog2 D : Int) + 1) * D :=
          mul_le_mul_of_nonneg_left b1q (by positivity)
  have lo : (2 : ℚ) ^ ((ilog2 N : Int) - (ilog2 D : Int) - 1) ≤ (N : ℚ) / D := by
    rw [le_div_iff₀ hDq]
    have e : (2 : ℚ) ^ ((ilog2 N : Int) - (ilog2 D : Int) - 1) * (2 : ℚ) ^ (ilog2 D + 1) =
        (2 : ℚ) ^ ilog2 N := by
      rw [← zpow_natCast, ← zpow_natCast, ← zpow_add₀ two]
      congr 1
      push_cast
      ring
    calc (2 : ℚ) ^ ((ilog2 N : Int) - (ilog2 D : Int) - 1) * D
        ≤ (2 : ℚ) ^ ((ilog2 N : Int) - (ilog2 D : Int) - 1) * (2 : ℚ) ^ (ilog2 D + 1) :=
          mul_le_mul_of_nonneg_left b2q.le (by positivity)
      _ = (2 : ℚ) ^ ilog2 N := e
      _ ≤ N := a1q
  unfold floorLog2
  simp only
  generalize (ilog2 N : Int) - (ilog2 D : Int) = k at up lo ⊢
  have key : (D * 2 ^ k.toNat ≤ N * 2 ^ (-k).toNat) ↔ (2 : ℚ) ^ k ≤ (N : ℚ) / D := by
    rw [two_zpow_split k, div_le_div_iff₀ (by positivity) hDq]
    constructor
    · intro h
      have : ((D * 2 ^ k.toNat : Nat) : ℚ) ≤ ((N * 2 ^ (-k).toNat : Nat) : ℚ) := by
        exact_mod_cast h
      push_cast at this
      linarith
    · intro h
      have : ((D * 2 ^ k.toNat : Nat) : ℚ) ≤ ((N * 2 ^ (-k).toNat : Nat) : ℚ) := by
        push_cast
        linarith
      exact_mod_cast this
  by_cases hk : D * 2 ^ k.toNat ≤ N * 2 ^ (-k).toNat
  · rw [if_pos hk]
    exact ⟨key.1 hk, up⟩
  · rw [if_neg hk]
    refine ⟨lo, ?_⟩
    rw [sub_add_cancel]
    exact lt_of_not_le (fun h => hk (key.2 h))

theorem roundHalfEven_exact (I D : Nat) (hD : 0 < D) : roundHalfEven (I * D) D = I := by
  unfold roundHalfEven
  have h1 : I * D / D = I := Nat.mul_div_cancel I hD
  have h2 : I * D % D = 0 := Nat.mul_mod_left I D
  simp only [h1, h2, Nat.mul_zero, hD, if_true]


/-- Rounding is exact on the numbers binary64 holds: when `N / D` is `M * 2^E`
with `M < 2^53` and `-1074 ≤ E`, below `2^1024`, the result is finite and its
value is `N / D`. -/
theorem round_exact (neg : Bool) (N D M : Nat) (E : Int) (hN : 0 < N) (hD : 0 < D)
    (hM : M < 2 ^ 53) (hE : -1074 ≤ E) (hq : (N : ℚ) / D = M * (2 : ℚ) ^ E)
    (hlt : (N : ℚ) / D < (2 : ℚ) ^ (1024 : Int)) :
    ∃ (m : Nat) (e : Int), F64.round neg N D = F64.fin neg m e ∧
      (m : ℚ) * (2 : ℚ) ^ e = (N : ℚ) / D := by
  obtain ⟨k1, k2⟩ := floorLog2_spec N D hN hD
  have two1 : (1 : ℚ) < 2 := by norm_num
  have two0 : (2 : ℚ) ≠ 0 := by norm_num
  have hk1 : floorLog2 N D < 53 + E := by
    have : (2 : ℚ) ^ floorLog2 N D < (2 : ℚ) ^ (53 + E) := by
      calc (2 : ℚ) ^ floorLog2 N D ≤ N / D := k1
        _ = M * (2 : ℚ) ^ E := hq
        _ < (2 : ℚ) ^ (53 : Int) * (2 : ℚ) ^ E := by
            apply mul_lt_mul_of_pos_right _ (by positivity)
            have : (M : ℚ) < ((2 ^ 53 : Nat) : ℚ) := by exact_mod_cast hM
            have h53 : (2 : ℚ) ^ (53 : Int) = ((2 ^ 53 : Nat) : ℚ) := by norm_num
            rw [h53]
            exact this
        _ = (2 : ℚ) ^ (53 + E) := by rw [zpow_add₀ two0]
    exact (zpow_lt_zpow_iff_right₀ two1).1 this
  have hk2 : floorLog2 N D < 1024 := (zpow_lt_zpow_iff_right₀ two1).1 (lt_of_le_of_lt k1 hlt)
  obtain ⟨e0, he0⟩ : ∃ e0 : Int, e0 = max (floorLog2 N D - 52) (-1074) := ⟨_, rfl⟩
  have h1 : e0 ≤ E := by rw [he0]; exact max_le (by omega) hE
  have h2 : floorLog2 N D - 52 ≤ e0 := by rw [he0]; exact le_max_left _ _
  have h3 : e0 ≤ 971 := by rw [he0]; exact max_le (by omega) (by norm_num)
  have hI : ((M * 2 ^ (E - e0).toNat : Nat) : ℚ) = (N : ℚ) / D / (2 : ℚ) ^ e0 := by
    rw [hq]
    push_cast
    rw [mul_div_assoc, ← zpow_sub₀ two0, ← zpow_natCast, Int.toNat_of_nonneg (by omega)]
  have hEq : N * 2 ^ (-e0).toNat = M * 2 ^ (E - e0).toNat * (D * 2 ^ e0.toNat) := by
    have h := scaled_eq N D e0
    rw [← hI, div_eq_iff (by positivity)] at h
    exact_mod_cast h
  have hIlt : M * 2 ^ (E - e0).toNat < 2 ^ 53 := by
    have : ((M * 2 ^ (E - e0).toNat : Nat) : ℚ) < (2 : ℚ) ^ (53 : Int) := by
      rw [hI, div_lt_iff₀ (by positivity)]
      calc (N : ℚ) / D < (2 : ℚ) ^ (floorLog2 N D + 1) := k2
        _ ≤ (2 : ℚ) ^ (53 + e0) := zpow_le_zpow_right₀ two1.le (by omega)
        _ = (2 : ℚ) ^ (53 : Int) * (2 : ℚ) ^ e0 := by rw [zpow_add₀ two0]
    have h53 : (2 : ℚ) ^ (53 : Int) = ((2 ^ 53 : Nat) : ℚ) := by norm_num
    rw [h53] at this
    exact_mod_cast this
  refine ⟨M * 2 ^ (E - e0).toNat, e0, ?_, ?_⟩
  · unfold F64.round
    simp only [Nat.pos_iff_ne_zero.1 hN, if_false, ← he0]
    rw [hEq, roundHalfEven_exact _ _ (by positivity)]
    simp only [ne_of_lt hIlt, if_false, not_lt.2 h3]
  · rw [hI]
    field_simp
    ring


/-- Rounding is exact on the numbers binary64 holds, zero included. -/
theorem round_exact_zero (neg : Bool) (N D M : Nat) (E : Int) (hD : 0 < D)
    (hM : M < 2 ^ 53) (hE : -1074 ≤ E) (hq : (N : ℚ) / D = M * (2 : ℚ) ^ E)
    (hlt : (N : ℚ) / D < (2 : ℚ) ^ (1024 : Int)) :
    ∃ (m : Nat) (e : Int), F64.round neg N D = F64.fin neg m e ∧
      (m : ℚ) * (2 : ℚ) ^ e = (N : ℚ) / D := by
  rcases Nat.eq_zero_or_pos N with h | h
  · subst h
    exact ⟨0, -1074, by simp [F64.round], by simp⟩
  · exact round_exact neg N D M E h hD hM hE hq hlt

/-- The conversion to `int64` of a non-negative value below `2^63` is its floor. -/
theorem toInt64_floor (m : Nat) (e : Int) (h : (m : ℚ) * (2 : ℚ) ^ e < (2 : ℚ) ^ (63 : Int)) :
    (F64.fin false m e).toInt64 = ⌊(m : ℚ) * (2 : ℚ) ^ e⌋ := by
  have hv : (m : ℚ) * (2 : ℚ) ^ e =
      ((m * 2 ^ e.toNat : Nat) : ℚ) / ((2 ^ (-e).toNat : Nat) : ℚ) := by
    rw [two_zpow_split e]
    push_cast
    ring
  have hfl : ⌊(m : ℚ) * (2 : ℚ) ^ e⌋ = ((m * 2 ^ e.toNat / 2 ^ (-e).toNat : Nat) : Int) := by
    rw [hv, Rat.floor_natCast_div_natCast]
    push_cast
    rfl
  have hlt : ⌊(m : ℚ) * (2 : ℚ) ^ e⌋ < 2 ^ 63 := by
    rw [Int.floor_lt]
    have : (((2 : Int) ^ 63 : Int) : ℚ) = (2 : ℚ) ^ (63 : Int) := by norm_num
    rw [this]
    exact h
  have hge : (0 : Int) ≤ ⌊(m : ℚ) * (2 : ℚ) ^ e⌋ := by
    rw [hfl]
    exact Int.natCast_nonneg _
  rw [hfl] at hlt hge ⊢
  unfold F64.toInt64
  simp only [Bool.false_eq_true, if_false]
  rw [if_pos ⟨by omega, hlt⟩]

/-- The product of two non-negative values is exact when it is a number
binary64 holds. -/
theorem mul_exact (m1 m2 M : Nat) (e1 e2 E : Int) (hM : M < 2 ^ 53) (hE : -1074 ≤ E)
    (hq : (m1 : ℚ) * (2 : ℚ) ^ e1 * ((m2 : ℚ) * (2 : ℚ) ^ e2) = M * (2 : ℚ) ^ E)
    (hlt : (m1 : ℚ) * (2 : ℚ) ^ e1 * ((m2 : ℚ) * (2 : ℚ) ^ e2) < (2 : ℚ) ^ (1024 : Int)) :
    ∃ (m : Nat) (e : Int),
      F64.mul (F64.fin false m1 e1) (F64.fin false m2 e2) = F64.fin false m e ∧
      (m : ℚ) * (2 : ℚ) ^ e = (m1 : ℚ) * (2 : ℚ) ^ e1 * ((m2 : ℚ) * (2 : ℚ) ^ e2) := by
  have two0 : (2 : ℚ) ≠ 0 := by norm_num
  have hv : ((m1 * m2 * 2 ^ (e1 + e2).toNat : Nat) : ℚ) / ((2 ^ (-(e1 + e2)).toNat : Nat) : ℚ) =
      (m1 : ℚ) * (2 : ℚ) ^ e1 * ((m2 : ℚ) * (2 : ℚ) ^ e2) := by
    have : (m1 : ℚ) * (2 : ℚ) ^ e1 * ((m2 : ℚ) * (2 : ℚ) ^ e2) =
        (m1 : ℚ) * m2 * (2 : ℚ) ^ (e1 + e2) := by
      rw [zpow_add₀ two0]; ring
    rw [this, two_zpow_split (e1 + e2)]
    push_cast
    ring
  obtain ⟨m, e, h1, h2⟩ := round_exact_zero false (m1 * m2 * 2 ^ (e1 + e2).toNat)
    (2 ^ (-(e1 + e2)).toNat) M E (by positivity) hM hE (by rw [hv]; exact hq)
    (by rw [hv]; exact hlt)
  refine ⟨m, e, ?_, by rw [h2, hv]⟩
  simp only [F64.mul, Bool.xor_false]
  exact h1


/-! ## Lemmas on `ParseFloat` and on the `switch` -/

theorem ParseFloat_number {ip fp : List Char} (hip : isDigits ip = true)
    (hfp : isFractionText fp = true) :
    ParseFloat (String.mk (ip ++ fp)) =
      match F64.round false (digitsValue (ip ++ fp.drop 1)) (10 ^ (fp.drop 1).length) with
      | F64.fin neg m e => some (F64.fin neg m e)
      | _ => none := by
  have hne := ((isDigits_iff ip).1 hip).1
  have hall := all_of_isDigits hip
  have hstop : ∀ c t, fp = c :: t → isDigit c = false := by
    intro c t e
    rw [(isFractionText_head hfp c t e).1]
    exact dot_not_digit
  have e1 : (ip ++ fp).takeWhile isDigit = ip := takeWhile_stop ip fp hall hstop
  have e2 : (ip ++ fp).dropWhile isDigit = fp := dropWhile_stop ip fp hall hstop
  have hc : ip ≠ [] ∧ (fp = [] ∨ (fp = '.' :: fp.drop 1 ∧ fp.drop 1 ≠ [] ∧
      (fp.drop 1).all isDigit = true)) := by
    refine ⟨hne, ?_⟩
    cases fp with
    | nil => exact Or.inl rfl
    | cons a fr =>
      obtain ⟨ha, hfr⟩ := isFractionText_head hfp a fr rfl
      subst ha
      refine Or.inr ⟨rfl, ((isDigits_iff fr).1 hfr).1, ?_⟩
      simpa using all_of_isDigits hfr
  unfold ParseFloat
  simp only [e1, e2]
  rw [if_pos hc]

theorem ParseSize_grammar {ip fp ws un : List Char} (hip : isDigits ip = true)
    (hfp : isFractionText fp = true) (hws : isSpaces ws = true)
    (hun : isUnitText un = true) :
    ParseSize (String.mk (ip ++ fp ++ ws ++ un)) =
      match ParseFloat (String.mk (ip ++ fp)) with
      | none => (0, some ("invalid size: " ++ String.mk (ip ++ fp ++ ws ++ un)))
      | some number => unitSwitch number (String.mk un) := by
  unfold ParseSize
  simp only [FindStringSubmatch_grammar hip hfp hws hun]
  rfl

theorem unitLetter_cases {c : Char} (h : isUnitLetter c = true) :
    c ∈ ['K', 'k', 'M', 'm', 'G', 'g', 'T', 't', 'P', 'p'] := by
  simp only [isUnitLetter, Bool.or_eq_true, decide_eq_true_eq] at h
  simp only [List.mem_cons, List.mem_singleton]
  tauto

theorem toUpper_unit {un : List Char} (hun : isUnitText un = true) :
    ToUpper (String.mk un) ∈ unitTokens := by
  match un, hun with
  | [], _ => decide
  | [c], h =>
    simp only [isUnitText, Bool.or_eq_true, decide_eq_true_eq] at h
    rcases h with h | h
    · subst h; decide
    · have := unitLetter_cases h
      simp only [List.mem_cons, List.mem_singleton] at this
      rcases this with h | h | h | h | h | h | h | h | h | h | h <;>
        first | (subst h; decide) | (exact absurd h (List.not_mem_nil _))
  | [c, d], h =>
    simp only [isUnitText, Bool.and_eq_true, decide_eq_true_eq] at h
    obtain ⟨h1, h2⟩ := h
    subst h2
    have := unitLetter_cases h1
    simp only [List.mem_cons, List.mem_singleton] at this
    rcases this with h | h | h | h | h | h | h | h | h | h | h <;>
      first | (subst h; decide) | (exact absurd h (List.not_mem_nil _))
  | _ :: _ :: _ :: _, h => simp [isUnitText] at h

theorem ofInt_units :
    F64.ofInt Kilobyte = F64.fin false (2 ^ 52) (-42) ∧
    F64.ofInt Megabyte = F64.fin false (2 ^ 52) (-32) ∧
    F64.ofInt Gigabyte = F64.fin false (2 ^ 52) (-22) ∧
    F64.ofInt Terabyte = F64.fin false (2 ^ 52) (-12) ∧
    F64.ofInt Petabyte = F64.fin false (2 ^ 52) (-2) := by
  decide

/-- The `switch` on a text of the grammar: no error, and the number itself or
its product with the `float64` of the multiplier. -/
theorem unitSwitch_unit (number : F64) {un : List Char} (hun : isUnitText un = true) :
    (unitMultiplier (ToUpper (String.mk un)) = 1 ∧
      unitSwitch number (String.mk un) = (number.toInt64, none)) ∨
    (∃ j : Nat, 1 ≤ j ∧ j ≤ 5 ∧ unitMultiplier (ToUpper (String.mk un)) = 1024 ^ j ∧
      unitSwitch number (String.mk un) =
        ((F64.mul number (F64.fin false (2 ^ 52) (10 * (j : Int) - 52))).toInt64, none)) := by
  have hmem := toUpper_unit hun
  obtain ⟨k1, k2, k3, k4, k5⟩ := ofInt_units
  unfold unitSwitch
  simp only [k1, k2, k3, k4, k5]
  generalize ToUpper (String.mk un) = u at hmem ⊢
  simp only [unitTokens, List.mem_cons, List.mem_singleton] at hmem
  rcases hmem with h | h | h | h | h | h | h | h | h | h | h | h | h
  · subst h; left; exact ⟨by decide, by simp⟩
  · subst h; left; exact ⟨by decide, by simp⟩
  · subst h; right; exact ⟨1, by norm_num, by norm_num, by decide, by simp⟩
  · subst h; right; exact ⟨1, by norm_num, by norm_num, by decide, by simp⟩
  · subst h; right; exact ⟨2, by norm_num, by norm_num, by decide, by simp⟩
  · subst h; right; exact ⟨2, by norm_num, by norm_num, by decide, by simp⟩
  · subst h; right; exact ⟨3, by norm_num, by norm_num, by decide, by simp⟩
  · subst h; right; exact ⟨3, by norm_num, by norm_num, by decide, by simp⟩
  · subst h; right; exact ⟨4, by norm_num, by norm_num, by decide, by simp⟩
  · subst h; right; exact ⟨4, by norm_num, by norm_num, by decide, by simp⟩
  · subst h; right; exact ⟨5, by norm_num, by norm_num, by decide, by simp⟩
  · subst h; right; exact ⟨5, by norm_num, by norm_num, by decide, by simp⟩
  · exact absurd h (List.not_mem_nil _)


theorem unit_float_value (j : Nat) :
    ((2 ^ 52 : Nat) : ℚ) * (2 : ℚ) ^ (10 * (j : Int) - 52) = ((1024 ^ j : Nat) : ℚ) := by
  have two0 : (2 : ℚ) ≠ 0 := by norm_num
  have h52 : ((2 ^ 52 : Nat) : ℚ) = (2 : ℚ) ^ (52 : Int) := by norm_num
  have h1024 : ((1024 ^ j : Nat) : ℚ) = (2 : ℚ) ^ (10 * (j : Int)) := by
    push_cast
    rw [zpow_mul, zpow_natCast]
    norm_num
  rw [h52, h1024, ← zpow_add₀ two0]
  congr 1
  ring

theorem unitMultiplier_pos (u : String) : 1 ≤ unitMultiplier u := by
  unfold unitMultiplier
  split_ifs <;> norm_num

/-- The heart of the parser: on a text of the grammar whose number is one
binary64 holds, and whose product with the multiplier is below `2^63`, the
result is the floor of that product. -/
theorem ParseSize_exact {ip fp ws un : List Char} (hip : isDigits ip = true)
    (hfp : isFractionText fp = true) (hws : isSpaces ws = true)
    (hun : isUnitText un = true) (M : Nat) (E : Int) (hM : M < 2 ^ 53) (hE : -1074 ≤ E)
    (hq : decimalValue ip fp = M * (2 : ℚ) ^ E)
    (hlt : decimalValue ip fp * (unitMultiplier (ToUpper (String.mk un)) : ℚ) <
      (2 : ℚ) ^ (63 : Int)) :
    ParseSize (String.mk (ip ++ fp ++ ws ++ un)) =
      (⌊decimalValue ip fp * (unitMultiplier (ToUpper (String.mk un)) : ℚ)⌋, none) := by
  have two0 : (2 : ℚ) ≠ 0 := by norm_num
  have hq0 : 0 ≤ decimalValue ip fp := by
    unfold decimalValue
    positivity
  have hmul1 : (1 : ℚ) ≤ (unitMultiplier (ToUpper (String.mk un)) : ℚ) := by
    exact_mod_cast unitMultiplier_pos _
  have h63 : (2 : ℚ) ^ (63 : Int) < (2 : ℚ) ^ (1024 : Int) :=
    zpow_lt_zpow_right₀ (by norm_num) (by norm_num)
  have hq63 : decimalValue ip fp < (2 : ℚ) ^ (63 : Int) :=
    lt_of_le_of_lt (le_mul_of_one_le_right hq0 hmul1) hlt
  have hND : ((digitsValue (ip ++ fp.drop 1) : Nat) : ℚ) / ((10 ^ (fp.drop 1).length : Nat) : ℚ) =
      decimalValue ip fp := by
    unfold decimalValue
    push_cast
    rfl
  obtain ⟨m, e, h1, h2⟩ := round_exact_zero false (digitsValue (ip ++ fp.drop 1))
    (10 ^ (fp.drop 1).length) M E (by positivity) hM hE (by rw [hND]; exact hq)
    (by rw [hND]; exact lt_trans hq63 h63)
  rw [hND] at h2
  rw [ParseSize_grammar hip hfp hws hun, ParseFloat_number hip hfp, h1]
  simp only
  rcases unitSwitch_unit (F64.fin false m e) hun with ⟨u1, u2⟩ | ⟨j, _, _, u1, u2⟩
  · rw [u2, u1, toInt64_floor m e (by rw [h2]; exact hq63), h2]
    simp
  · rw [u1] at hlt ⊢
    have hprod : (m : ℚ) * (2 : ℚ) ^ e * (((2 ^ 52 : Nat) : ℚ) * (2 : ℚ) ^ (10 * (j : Int) - 52)) =
        decimalValue ip fp * ((1024 ^ j : Nat) : ℚ) := by
      rw [h2, unit_float_value]
    have hME : decimalValue ip fp * ((1024 ^ j : Nat) : ℚ) = M * (2 : ℚ) ^ (E + 10 * (j : Int)) := by
      rw [hq, zpow_add₀ two0, mul_assoc]
      congr 2
      push_cast
      rw [zpow_mul, zpow_natCast]
      norm_num
    obtain ⟨m', e', h3, h4⟩ := mul_exact m (2 ^ 52) M e (10 * (j : Int) - 52)
      (E + 10 * (j : Int)) hM (by omega) (by rw [hprod]; exact hME)
      (by rw [hprod]; exact lt_trans hlt h63)
    rw [hprod] at h4
    rw [u2, h3, toInt64_floor m' e' (by rw [h4]; exact hlt), h4]


/-! ## The decimal representation of a natural number -/

theorem digitsValue_snoc (l : List Char) (d : Char) :
    digitsValue (l ++ [d]) = 10 * digitsValue l + (d.toNat - 48) := by
  simp [digitsValue, List.foldl_append]

theorem digitChar_spec (k : Nat) (h : k < 10) :
    isDigit (Nat.digitChar k) = true ∧ (Nat.digitChar k).toNat - 48 = k := by
  interval_cases k <;> decide

theorem toDigitsCore_spec (fuel : Nat) : ∀ (n : Nat) (ds : List Char), n < fuel →
    ∃ l : List Char, Nat.toDigitsCore 10 fuel n ds = l ++ ds ∧ isDigits l = true ∧
      digitsValue l = n := by
  induction fuel with
  | zero => intro n ds h; omega
  | succ f ih =>
    intro n ds h
    obtain ⟨d1, d2⟩ := digitChar_spec (n % 10) (Nat.mod_lt n (by norm_num))
    unfold Nat.toDigitsCore
    by_cases h0 : n / 10 = 0
    · simp only [h0, if_true]
      refine ⟨[Nat.digitChar (n % 10)], rfl, ?_, ?_⟩
      · simp [isDigits, d1]
      · have := digitsValue_snoc [] (Nat.digitChar (n % 10))
        simp only [List.nil_append] at this
        rw [this, d2]
        simp only [digitsValue, List.foldl_nil]
        omega
    · simp only [h0, if_false]
      obtain ⟨l, e1, e2, e3⟩ := ih (n / 10) (Nat.digitChar (n % 10) :: ds) (by omega)
      refine ⟨l ++ [Nat.digitChar (n % 10)], ?_, ?_, ?_⟩
      · rw [e1]; simp
      · rw [isDigits_iff] at e2 ⊢
        refine ⟨by simp, ?_⟩
        intro c hc
        rcases List.mem_append.1 hc with hc | hc
        · exact e2.2 c hc
        · rw [List.mem_singleton.1 hc]; exact d1
      · rw [digitsValue_snoc, e3, d2]
        omega

/-- The decimal representation of `n` is a run of digits whose value is `n`. -/
theorem repr_spec (n : Nat) :
    isDigits (Nat.repr n).data = true ∧ digitsValue (Nat.repr n).data = n := by
  obtain ⟨l, e1, e2, e3⟩ := toDigitsCore_spec (n + 1) n [] (Nat.lt_succ_self n)
  have : (Nat.repr n).data = l := by
    simp only [Nat.repr, Nat.toDigits, List.asString, e1, List.append_nil]
  rw [this]
  exact ⟨e2, e3⟩


/-! ## Helpers for the statements on whole inputs -/

theorem token_unitText {u : String} (hu : u ∈ unitTokens) :
    isUnitText u.data = true ∧ ToUpper (String.mk u.data) = u := by
  simp only [unitTokens, List.mem_cons, List.mem_singleton] at hu
  rcases hu with h | h | h | h | h | h | h | h | h | h | h | h | h <;>
    first | (subst h; decide) | (exact absurd h (List.not_mem_nil _))

theorem isSpaces_replicate (k : Nat) : isSpaces (List.replicate k ' ') = true := by
  simp only [isSpaces, List.all_eq_true]
  intro c hc
  rw [List.eq_of_mem_replicate hc]
  decide

theorem decimalValue_nil (ds : List Char) : decimalValue ds [] = (digitsValue ds : ℚ) := by
  simp [decimalValue]

/-- A natural number `M * 2^E` with `M < 2^53` is a number binary64 holds. -/
theorem representable_nat (n M E : Nat) (hq : n = M * 2 ^ E) :
    (n : ℚ) = (M : ℚ) * (2 : ℚ) ^ (E : Int) := by
  rw [hq, zpow_natCast]
  push_cast
  rfl

/-- Every natural number up to `2^53` is a number binary64 holds. -/
theorem representable_le (n : Nat) (hn : n ≤ 2 ^ 53) :
    ∃ M E : Nat, M < 2 ^ 53 ∧ n = M * 2 ^ E := by
  rcases Nat.lt_or_ge n (2 ^ 53) with h | h
  · exact ⟨n, 0, h, by simp⟩
  · exact ⟨2 ^ 52, 1, by norm_num, by omega⟩

/-- The parser on a run of digits, spaces and a unit text, when the number is
a natural number binary64 holds and the product is below `2^63`. -/
theorem ParseSize_nat {ds ws un : List Char} (hds : isDigits ds = true)
    (hws : isSpaces ws = true) (hun : isUnitText un = true) (M E : Nat) (hM : M < 2 ^ 53)
    (hq : digitsValue ds = M * 2 ^ E)
    (hlt : digitsValue ds * unitMultiplier (ToUpper (String.mk un)) < 2 ^ 63) :
    ParseSize (String.mk (ds ++ ws ++ un)) =
      (((digitsValue ds * unitMultiplier (ToUpper (String.mk un)) : Nat) : Int), none) := by
  have h63 : (((2 ^ 63 : Nat)) : ℚ) = (2 : ℚ) ^ (63 : Int) := by norm_num
  have hlt' : decimalValue ds [] * (unitMultiplier (ToUpper (String.mk un)) : ℚ) <
      (2 : ℚ) ^ (63 : Int) := by
    rw [decimalValue_nil, ← h63]
    exact_mod_cast hlt
  have h := ParseSize_exact hds (rfl : isFractionText [] = true) hws hun M (E : Int) hM (by omega)
    (by rw [decimalValue_nil]; exact representable_nat _ M E hq) hlt'
  rw [List.append_nil] at h
  rw [h, decimalValue_nil]
  congr 1
  have : ((digitsValue ds : ℚ)) * (unitMultiplier (ToUpper (String.mk un)) : ℚ) =
      (((digitsValue ds * unitMultiplier (ToUpper (String.mk un)) : Nat) : Int) : ℚ) := by
    push_cast
    rfl
  rw [this, Int.floor_intCast]


/-! ## Lemmas on two inputs with the same number, and on the errors -/

theorem unitSwitch_letter_B (number : F64) {L : Char} (hL : isUnitLetter L = true) :
    unitSwitch number (String.mk [L]) = unitSwitch number (String.mk [L, 'B']) := by
  have := unitLetter_cases hL
  simp only [List.mem_cons, List.mem_singleton] at this
  rcases this with h | h | h | h | h | h | h | h | h | h | h <;>
    first | (subst h; rfl) | (exact absurd h (List.not_mem_nil _))

theorem unitSwitch_B (number : F64) :
    unitSwitch number (String.mk []) = unitSwitch number (String.mk ['B']) := rfl

/-- Two texts of the grammar with the same number and units that the `switch`
treats alike give the same value, and fail or succeed together. -/
theorem ParseSize_same_number {ip fp ws1 ws2 un1 un2 : List Char}
    (hip : isDigits ip = true) (hfp : isFractionText fp = true)
    (hws1 : isSpaces ws1 = true) (hws2 : isSpaces ws2 = true)
    (hun1 : isUnitText un1 = true) (hun2 : isUnitText un2 = true)
    (hsw : ∀ number, unitSwitch number (String.mk un1) = unitSwitch number (String.mk un2)) :
    (ParseSize (String.mk (ip ++ fp ++ ws1 ++ un1))).1 =
        (ParseSize (String.mk (ip ++ fp ++ ws2 ++ un2))).1 ∧
      ((ParseSize (String.mk (ip ++ fp ++ ws1 ++ un1))).2 = none ↔
        (ParseSize (String.mk (ip ++ fp ++ ws2 ++ un2))).2 = none) := by
  rw [ParseSize_grammar hip hfp hws1 hun1, ParseSize_grammar hip hfp hws2 hun2]
  cases ParseFloat (String.mk (ip ++ fp)) with
  | none => simp
  | some number => simp only [hsw number, and_self]

/-- Every result of `ParseSize` is either the error `invalid size: ` with the
input, together with the count 0, or a success. -/
theorem ParseSize_error_form (s : String) :
    ParseSize s = (0, some ("invalid size: " ++ s)) ∨ (ParseSize s).2 = none := by
  by_cases h : (FindStringSubmatch s).length = 4
  · obtain ⟨ip, fp, ws, un, hip, hfp, hws, hun, hs, _⟩ := FindStringSubmatch_sound s h
    have es : s = String.mk (ip ++ fp ++ ws ++ un) := by rw [← hs]
    rw [es, ParseSize_grammar hip hfp hws hun]
    cases ParseFloat (String.mk (ip ++ fp)) with
    | none => exact Or.inl rfl
    | some number =>
      right
      rcases unitSwitch_unit number hun with ⟨_, u2⟩ | ⟨j, _, _, _, u2⟩ <;> simp [u2]
  · left
    unfold ParseSize
    simp only [ne_eq, h, not_false_eq_true, if_true]

theorem prefix_ne (s t : String) : "invalid size: " ++ s ≠ "invalid size suffix: " ++ t := by
  intro h
  have h1 := congrArg String.data h
  have e1 : ("invalid size: " : String).data =
      ['i', 'n', 'v', 'a', 'l', 'i', 'd', ' ', 's', 'i', 'z', 'e', ':', ' '] := by decide
  have e2 : ("invalid size suffix: " : String).data =
      ['i', 'n', 'v', 'a', 'l', 'i', 'd', ' ', 's', 'i', 'z', 'e', ' ', 's', 'u', 'f',
        'f', 'i', 'x', ':', ' '] := by decide
  rw [String.data_append, String.data_append, e1, e2] at h1
  simp at h1

/-- A letter of a unit token, in either case, is no digit, space or point. -/
theorem toUpper_letter_head (c : Char)
    (h : c.toUpper = 'B' ∨ c.toUpper = 'K' ∨ c.toUpper = 'M' ∨ c.toUpper = 'G' ∨
      c.toUpper = 'T' ∨ c.toUpper = 'P') :
    isDigit c = false ∧ isSpace c = false ∧ c ≠ '.' := by
  by_cases hr : c.toNat ≥ 97 ∧ c.toNat ≤ 122
  · refine ⟨?_, ?_, ?_⟩
    · cases hd : isDigit c with
      | false => rfl
      | true =>
        simp only [isDigit, decide_eq_true_eq] at hd
        have h9 : c.toNat ≤ 57 := hd.2
        omega
    · cases hd : isSpace c with
      | false => rfl
      | true =>
        simp only [isSpace, Bool.or_eq_true, decide_eq_true_eq] at hd
        rcases hd with ((((hd | hd) | hd) | hd) | hd) | hd <;> subst hd <;>
          exact absurd hr (by decide)
    · intro hd
      subst hd
      exact absurd hr (by decide)
  · have e : c.toUpper = c := by
      unfold Char.toUpper
      simp only [hr, if_false]
    rw [e] at h
    rcases h with h | h | h | h | h | h <;> subst h <;> decide


theorem tokens_data :
    ∀ u ∈ unitTokens, u.data = [] ∨ ∃ c t, u.data = c :: t ∧
      (c = 'B' ∨ c = 'K' ∨ c = 'M' ∨ c = 'G' ∨ c = 'T' ∨ c = 'P') := by
  intro u hu
  simp only [unitTokens, List.mem_cons, List.mem_singleton] at hu
  rcases hu with h | h | h | h | h | h | h | h | h | h | h | h | h
  · subst h; left; rfl
  · subst h; right; exact ⟨'B', [], rfl, by decide⟩
  · subst h; right; exact ⟨'K', [], rfl, by decide⟩
  · subst h; right; exact ⟨'K', ['B'], rfl, by decide⟩
  · subst h; right; exact ⟨'M', [], rfl, by decide⟩
  · subst h; right; exact ⟨'M', ['B'], rfl, by decide⟩
  · subst h; right; exact ⟨'G', [], rfl, by decide⟩
  · subst h; right; exact ⟨'G', ['B'], rfl, by decide⟩
  · subst h; right; exact ⟨'T', [], rfl, by decide⟩
  · subst h; right; exact ⟨'T', ['B'], rfl, by decide⟩
  · subst h; right; exact ⟨'P', [], rfl, by decide⟩
  · subst h; right; exact ⟨'P', ['B'], rfl, by decide⟩
  · exact absurd h (List.not_mem_nil _)

/-- A unit token written in any letter case starts with no digit, space or
point. -/
theorem anycase_head_ok {un : List Char} (hu : ToUpper (String.mk un) ∈ unitTokens) :
    ∀ c t, un = c :: t → isDigit c = false ∧ isSpace c = false ∧ c ≠ '.' := by
  intro c t e
  subst e
  rcases tokens_data _ hu with h | ⟨d, r, h1, h2⟩
  · simp [ToUpper] at h
  · simp only [ToUpper, List.map_cons, List.cons.injEq] at h1
    rw [← h1.1] at h2
    exact toUpper_letter_head c h2

/-- A text the grammar of the expression does not take as a unit makes the
match fail. -/
theorem FindStringSubmatch_bad_unit {ip fp ws un : List Char} (hip : isDigits ip = true)
    (hfp : isFractionText fp = true) (hws : isSpaces ws = true)
    (hun : ∀ c t, un = c :: t → isDigit c = false ∧ isSpace c = false ∧ c ≠ '.')
    (hbad : isUnitText un ≠ true) :
    FindStringSubmatch (String.mk (ip ++ fp ++ ws ++ un)) = [] := by
  rw [FindStringSubmatch_scan hip hfp hws hun]
  have : (scanUnit un).2 ≠ [] := by
    intro h
    obtain ⟨s1, s2⟩ := scanUnit_spec un
    rw [h, List.append_nil] at s2
    rw [← s2] at s1
    exact hbad s1
  rw [if_neg this]

theorem ParseSize_no_match {s : String} (h : FindStringSubmatch s = []) :
    ParseSize s = (0, some ("invalid size: " ++ s)) := by
  unfold ParseSize
  simp [h]


/-! ## The range of `ParseFloat` -/

theorem roundHalfEven_le (N D I : Nat) (hD : 0 < D) (h : 2 * N < (2 * I + 1) * D) :
    roundHalfEven N D ≤ I := by
  have e := Nat.div_add_mod N D
  have r := Nat.mod_lt N hD
  unfold roundHalfEven
  simp only
  rcases Nat.lt_or_ge (N / D) I with c | c
  · split_ifs <;> omega
  · have c1 : D * I ≤ D * (N / D) := Nat.mul_le_mul_left D c
    have e2 : (2 * I + 1) * D = 2 * (D * I) + D := by ring
    have c3 : N / D ≤ I := by
      by_contra hc
      have : D * (I + 1) ≤ D * (N / D) := Nat.mul_le_mul_left D (by omega)
      have e3 : D * (I + 1) = D * I + D := by ring
      omega
    rw [if_pos (by omega)]
    exact c3

theorem roundHalfEven_ge (N D I : Nat) (hD : 0 < D) (hI : I % 2 = 0) (hI1 : 1 ≤ I)
    (h : 2 * I * D ≤ 2 * N + D) : I ≤ roundHalfEven N D := by
  have e := Nat.div_add_mod N D
  have r := Nat.mod_lt N hD
  unfold roundHalfEven
  simp only
  rcases Nat.lt_or_ge (N / D) I with c | c
  · have c2 : N / D = I - 1 := by
      by_contra hc
      have : D * (N / D + 2) ≤ D * I := Nat.mul_le_mul_left D (by omega)
      have e3 : D * (N / D + 2) = D * (N / D) + 2 * D := by ring
      have e4 : 2 * I * D = 2 * (D * I) := by ring
      omega
    have e5 : D * I = D * (N / D) + D := by
      have : I = N / D + 1 := by omega
      rw [this]; ring
    have e4 : 2 * I * D = 2 * (D * I) := by ring
    split_ifs <;> omega
  · split_ifs <;> omega

/-- The threshold of overflow: the numbers from `2^1024 - 2^970` on round to
infinity, those below to a finite `float64`. -/
theorem round_finite_iff (neg : Bool) (N D : Nat) (hD : 0 < D) :
    (∃ (s : Bool) (m : Nat) (e : Int), F64.round neg N D = F64.fin s m e) ↔
      (N : ℚ) / D < (2 : ℚ) ^ (1024 : Int) - (2 : ℚ) ^ (970 : Int) := by
  have two1 : (1 : ℚ) < 2 := by norm_num
  have two0 : (2 : ℚ) ≠ 0 := by norm_num
  have hT1 : (2 : ℚ) ^ (1024 : Int) - (2 : ℚ) ^ (970 : Int) < (2 : ℚ) ^ (1024 : Int) := by
    have : (0 : ℚ) < (2 : ℚ) ^ (970 : Int) := by positivity
    linarith
  have hT2 : (2 : ℚ) ^ (1023 : Int) ≤ (2 : ℚ) ^ (1024 : Int) - (2 : ℚ) ^ (970 : Int) := by
    have a : (2 : ℚ) ^ (1024 : Int) = 2 * (2 : ℚ) ^ (1023 : Int) := by
      rw [show (1024 : Int) = 1 + 1023 by norm_num, zpow_add₀ two0]; norm_num
    have b : (2 : ℚ) ^ (970 : Int) ≤ (2 : ℚ) ^ (1023 : Int) :=
      zpow_le_zpow_right₀ two1.le (by norm_num)
    linarith
  have hT3 : ((2 : ℚ) ^ (1024 : Int) - (2 : ℚ) ^ (970 : Int)) / (2 : ℚ) ^ (971 : Int) =
      (2 : ℚ) ^ (53 : Int) - 1 / 2 := by
    have a : (2 : ℚ) ^ (1024 : Int) = (2 : ℚ) ^ (53 : Int) * (2 : ℚ) ^ (971 : Int) := by
      rw [← zpow_add₀ two0]; norm_num
    have b : (2 : ℚ) ^ (971 : Int) = 2 * (2 : ℚ) ^ (970 : Int) := by
      rw [show (971 : Int) = 1 + 970 by norm_num, zpow_add₀ two0]; norm_num
    have c : (0 : ℚ) < (2 : ℚ) ^ (970 : Int) := by positivity
    rw [a, b]
    field_simp
    ring
  rcases Nat.eq_zero_or_pos N with hN | hN
  · subst hN
    constructor
    · intro _
      have : (0 : ℚ) < (2 : ℚ) ^ (1023 : Int) := by positivity
      simp only [Nat.cast_zero, zero_div]
      linarith
    · intro _
      exact ⟨neg, 0, -1074, by simp [F64.round]⟩
  obtain ⟨k1, k2⟩ := floorLog2_spec N D hN hD
  obtain ⟨e0, he0⟩ : ∃ e0 : Int, e0 = max (floorLog2 N D - 52) (-1074) := ⟨_, rfl⟩
  have h2 : floorLog2 N D - 52 ≤ e0 := by rw [he0]; exact le_max_left _ _
  have hD' : 0 < D * 2 ^ e0.toNat := by positivity
  have hD'q : (0 : ℚ) < ((D * 2 ^ e0.toNat : Nat) : ℚ) := by exact_mod_cast hD'
  have hx := scaled_eq N D e0
  -- bounds on the rounded significand, from bounds on the scaled quotient
  have up : ∀ I : Nat, (N : ℚ) / D / (2 : ℚ) ^ e0 < (I : ℚ) + 1 / 2 →
      roundHalfEven (N * 2 ^ (-e0).toNat) (D * 2 ^ e0.toNat) ≤ I := by
    intro I hI
    apply roundHalfEven_le _ _ _ hD'
    rw [← hx, div_lt_iff₀ hD'q] at hI
    have : (2 : ℚ) * ((N * 2 ^ (-e0).toNat : Nat) : ℚ) <
        (((2 * I + 1) * (D * 2 ^ e0.toNat) : Nat) : ℚ) := by
      push_cast at hI ⊢
      linarith
    exact_mod_cast this
  have lo : ∀ I : Nat, I % 2 = 0 → 1 ≤ I → (I : ℚ) - 1 / 2 ≤ (N : ℚ) / D / (2 : ℚ) ^ e0 →
      I ≤ roundHalfEven (N * 2 ^ (-e0).toNat) (D * 2 ^ e0.toNat) := by
    intro I i1 i2 hI
    apply roundHalfEven_ge _ _ _ hD' i1 i2
    rw [← hx, le_div_iff₀ hD'q] at hI
    have : (((2 * I * (D * 2 ^ e0.toNat) : Nat)) : ℚ) ≤
        ((2 * (N * 2 ^ (-e0).toNat) + D * 2 ^ e0.toNat : Nat) : ℚ) := by
      push_cast at hI ⊢
      linarith
    exact_mod_cast this
  have h53 : ((2 ^ 53 : Nat) : ℚ) = (2 : ℚ) ^ (53 : Int) := by norm_num
  unfold F64.round
  simp only [Nat.pos_iff_ne_zero.1 hN, if_false, ← he0]
  constructor
  · -- finite, hence below the threshold
    intro ⟨s, m, e, hfin⟩
    by_contra hge
    rw [not_lt] at hge
    have hk : 1023 ≤ floorLog2 N D := by
      have : (2 : ℚ) ^ (1023 : Int) < (2 : ℚ) ^ (floorLog2 N D + 1) :=
        lt_of_le_of_lt (le_trans hT2 hge) k2
      have := (zpow_lt_zpow_iff_right₀ two1).1 this
      omega
    have he971 : 971 ≤ e0 := by omega
    by_cases hm : roundHalfEven (N * 2 ^ (-e0).toNat) (D * 2 ^ e0.toNat) = 2 ^ 53
    · simp only [hm, if_true] at hfin
      rw [if_pos (by omega)] at hfin
      exact F64.noConfusion hfin
    · simp only [hm, if_false] at hfin
      rcases lt_or_eq_of_le he971 with hlt | heq
      · rw [if_pos hlt] at hfin
        exact F64.noConfusion hfin
      · -- `e0 = 971`: the significand is exactly `2^53`
        have hk' : floorLog2 N D = 1023 := by
          have : floorLog2 N D - 52 ≤ 971 := by
            rw [heq, he0] at *
            rcases max_cases (floorLog2 N D - 52) (-1074) with ⟨a, _⟩ | ⟨a, _⟩
            · omega
            · omega
          omega
        have x1 : (N : ℚ) / D / (2 : ℚ) ^ e0 < ((2 ^ 53 : Nat) : ℚ) + 1 / 2 := by
          rw [div_lt_iff₀ (by positivity), h53, ← heq]
          have : (N : ℚ) / D < (2 : ℚ) ^ (53 : Int) * (2 : ℚ) ^ (971 : Int) := by
            rw [← zpow_add₀ two0]
            rw [hk'] at k2
            exact k2
          have p : (0 : ℚ) < (2 : ℚ) ^ (971 : Int) := by positivity
          nlinarith
        have x2 : ((2 ^ 53 : Nat) : ℚ) - 1 / 2 ≤ (N : ℚ) / D / (2 : ℚ) ^ e0 := by
          rw [h53, ← hT3, ← heq]
          exact div_le_div_of_nonneg_right hge (by positivity)
        have a := up (2 ^ 53) x1
        have b := lo (2 ^ 53) (by norm_num) (by norm_num) x2
        exact hm (le_antisymm a b)
  · -- below the threshold, hence finite
    intro hlt
    have hk : floorLog2 N D < 1024 :=
      (zpow_lt_zpow_iff_right₀ two1).1 (lt_of_le_of_lt k1 (lt_trans hlt hT1))
    have h3 : e0 ≤ 971 := by rw [he0]; exact max_le (by omega) (by norm_num)
    by_cases hm : roundHalfEven (N * 2 ^ (-e0).toNat) (D * 2 ^ e0.toNat) = 2 ^ 53
    · simp only [hm, if_true]
      have : e0 ≠ 971 := by
        intro heq
        have x1 : (N : ℚ) / D / (2 : ℚ) ^ e0 < ((2 ^ 53 - 1 : Nat) : ℚ) + 1 / 2 := by
          have : ((2 ^ 53 - 1 : Nat) : ℚ) + 1 / 2 = (2 : ℚ) ^ (53 : Int) - 1 / 2 := by
            norm_num
          rw [this, ← hT3, heq]
          exact div_lt_div_of_pos_right hlt (by positivity)
        have a := up (2 ^ 53 - 1) x1
        rw [hm] at a
        norm_num at a
      rw [if_neg (by omega)]
      exact ⟨_, _, _, rfl⟩
    · simp only [hm, if_false]
      rw [if_neg (by omega)]
      exact ⟨_, _, _, rfl⟩


/-- On a text of the grammar of the expression, `ParseSize` succeeds exactly
when the number is below the threshold of overflow of binary64. -/
theorem ParseSize_succeeds_iff {ip fp ws un : List Char} (hip : isDigits ip = true)
    (hfp : isFractionText fp = true) (hws : isSpaces ws = true)
    (hun : isUnitText un = true) :
    (ParseSize (String.mk (ip ++ fp ++ ws ++ un))).2 = none ↔
      decimalValue ip fp < (2 : ℚ) ^ (1024 : Int) - (2 : ℚ) ^ (970 : Int) := by
  have hND : ((digitsValue (ip ++ fp.drop 1) : Nat) : ℚ) / ((10 ^ (fp.drop 1).length : Nat) : ℚ) =
      decimalValue ip fp := by
    unfold decimalValue
    push_cast
    rfl
  have key := round_finite_iff false (digitsValue (ip ++ fp.drop 1)) (10 ^ (fp.drop 1).length)
    (by positivity)
  rw [hND] at key
  rw [← key, ParseSize_grammar hip hfp hws hun, ParseFloat_number hip hfp]
  cases hR : F64.round false (digitsValue (ip ++ fp.drop 1)) (10 ^ (fp.drop 1).length) with
  | fin s m e =>
    simp only
    constructor
    · intro _; exact ⟨s, m, e, rfl⟩
    · intro _
      rcases unitSwitch_unit (F64.fin s m e) hun with ⟨_, u2⟩ | ⟨j, _, _, _, u2⟩ <;> simp [u2]
  | inf s => simp
  | nan => simp

theorem plain_space {c : Char} (h1 : isSpace c = true) (h2 : isPlainChar c = true) :
    c = ' ' := by
  simp only [isSpace, Bool.or_eq_true, decide_eq_true_eq] at h1
  rcases h1 with ((((h | h) | h) | h) | h) | h
  · subst h; exact absurd h2 (by decide)
  · subst h; exact absurd h2 (by decide)
  · subst h; exact absurd h2 (by decide)
  · subst h; exact absurd h2 (by decide)
  · subst h; exact absurd h2 (by decide)
  · exact h

/-- A success on an input of plain characters: the input is a text of the
grammar of the specification, and its number is below the threshold. -/
theorem ParseSize_success_grammar (s : String) (hp : ∀ c ∈ s.data, isPlainChar c = true)
    (h : (ParseSize s).2 = none) :
    ∃ (ip fp : List Char) (k : Nat) (un : List Char), isDigits ip = true ∧
      isFractionText fp = true ∧ ToUpper (String.mk un) ∈ unitTokens ∧
      s.data = ip ++ fp ++ List.replicate k ' ' ++ un ∧
      decimalValue ip fp < (2 : ℚ) ^ (1024 : Int) - (2 : ℚ) ^ (970 : Int) := by
  have h4 : (FindStringSubmatch s).length = 4 := by
    by_contra hc
    unfold ParseSize at h
    simp [hc] at h
  obtain ⟨ip, fp, ws, un, hip, hfp, hws, hun, hs, _⟩ := FindStringSubmatch_sound s h4
  have es : s = String.mk (ip ++ fp ++ ws ++ un) := by rw [← hs]
  have hws' : ws = List.replicate ws.length ' ' := by
    rw [List.eq_replicate_iff]
    refine ⟨rfl, ?_⟩
    intro c hc
    apply plain_space (all_of_isSpaces hws c hc)
    apply hp
    rw [hs]
    simp [hc]
  refine ⟨ip, fp, ws.length, un, hip, hfp, toUpper_unit hun, by rw [← hws']; exact hs, ?_⟩
  rw [es] at h
  exact (ParseSize_succeeds_iff hip hfp hws hun).1 h


theorem decimalValue_one_five : decimalValue ['1'] ['.', '5'] = (3 : ℚ) / 2 := by
  have h : digitsValue (['1'] ++ (['.', '5'] : List Char).drop 1) = 15 := by decide
  unfold decimalValue
  rw [h]
  norm_num



/-! ## Lemmas on `Abs` and on the unit chosen by `SizeString` -/

theorem Abs_of_range (s : Int) (h1 : -2 ^ 63 < s) (h2 : s < 2 ^ 63) :
    Abs s = (s.natAbs : Int) := by
  unfold Abs wrapInt64
  split_ifs <;> omega

theorem Abs_min : Abs (-2 ^ 63) = -2 ^ 63 := by decide

theorem ParseSize_success_match {s : String} (h : (ParseSize s).2 = none) :
    (FindStringSubmatch s).length = 4 := by
  by_contra hc
  unfold ParseSize at h
  simp [hc] at h

theorem isFractionText_mem {fp : List Char} (h : isFractionText fp = true) :
    ∀ c ∈ fp, c = '.' ∨ isDigit c = true := by
  cases fp with
  | nil => intro c hc; exact absurd hc (List.not_mem_nil c)
  | cons a fr =>
    obtain ⟨ha, hfr⟩ := isFractionText_head h a fr rfl
    intro c hc
    rcases List.mem_cons.1 hc with e | e
    · left; rw [e, ha]
    · right; exact all_of_isDigits hfr c e

theorem isUnitText_mem {un : List Char} (h : isUnitText un = true) :
    ∀ c ∈ un, c = 'B' ∨ isUnitLetter c = true := by
  match un, h with
  | [], _ => intro c hc; exact absurd hc (List.not_mem_nil c)
  | [a], h =>
    intro c hc
    rw [List.mem_singleton.1 hc]
    simpa [isUnitText] using h
  | [a, b], h =>
    simp only [isUnitText, Bool.and_eq_true, decide_eq_true_eq] at h
    intro c hc
    simp only [List.mem_cons, List.mem_singleton, List.not_mem_nil, or_false] at hc
    rcases hc with e | e
    · right; rw [e]; exact h.1
    · left; rw [e]; exact h.2
  | _ :: _ :: _ :: _, h => simp [isUnitText] at h

/-- The tails that `SizeString` puts after the number. -/
theorem tail_not_suffix {l1 l2 : List Char} (x : List Char) (h1 : ¬ l1 <:+ l2)
    (h2 : ¬ l2 <:+ l1) : ¬ l1 <:+ x ++ l2 := by
  intro h
  rcases List.suffix_or_suffix_of_suffix h (List.suffix_append x l2) with c | c
  · exact h1 c
  · exact h2 c

theorem endsIn_same (x t : String) : endsIn (x ++ t) t := by
  unfold endsIn
  rw [String.data_append]
  exact List.suffix_append _ _

theorem endsIn_other (x t u : String) (h1 : ¬ u.data <:+ t.data) (h2 : ¬ t.data <:+ u.data) :
    ¬ endsIn (x ++ t) u := by
  unfold endsIn
  rw [String.data_append]
  exact tail_not_suffix x.data h1 h2


/-- The branch `SizeString` takes, read off the absolute value of `s`. -/
theorem SizeString_bracket (s : Int) (h1 : -2 ^ 63 < s) (h2 : s < 2 ^ 63) :
    (s.natAbs < 1024 → SizeString s = FormatInt s ++ " B") ∧
    (1024 ≤ s.natAbs → s.natAbs < 1024 ^ 2 →
      SizeString s = FormatFloat2 (Kilobytes s) ++ " KB") ∧
    (1024 ^ 2 ≤ s.natAbs → s.natAbs < 1024 ^ 3 →
      SizeString s = FormatFloat2 (Megabytes s) ++ " MB") ∧
    (1024 ^ 3 ≤ s.natAbs → s.natAbs < 1024 ^ 4 →
      SizeString s = FormatFloat2 (Gigabytes s) ++ " GB") ∧
    (1024 ^ 4 ≤ s.natAbs → s.natAbs < 1024 ^ 5 →
      SizeString s = FormatFloat2 (Terabytes s) ++ " TB") ∧
    (1024 ^ 5 ≤ s.natAbs → SizeString s = FormatFloat2 (Petabytes s) ++ " PB") := by
  have ha := Abs_of_range s h1 h2
  have e1 : ∀ x : String, x ++ " " ++ BytesSuffix = x ++ " B" := fun x => by
    rw [String.append_assoc]; rfl
  have e2 : ∀ x : String, x ++ " " ++ KilobytesSuffix = x ++ " KB" := fun x => by
    rw [String.append_assoc]; rfl
  have e3 : ∀ x : String, x ++ " " ++ MegabytesSuffix = x ++ " MB" := fun x => by
    rw [String.append_assoc]; rfl
  have e4 : ∀ x : String, x ++ " " ++ GigabytesSuffix = x ++ " GB" := fun x => by
    rw [String.append_assoc]; rfl
  have e5 : ∀ x : String, x ++ " " ++ TerabytesSuffix = x ++ " TB" := fun x => by
    rw [String.append_assoc]; rfl
  have e6 : ∀ x : String, x ++ " " ++ PetabytesSuffix = x ++ " PB" := fun x => by
    rw [String.append_assoc]; rfl
  have k1 : Kilobyte = 1024 := rfl
  have k2 : Megabyte = 1024 ^ 2 := by decide
  have k3 : Gigabyte = 1024 ^ 3 := by decide
  have k4 : Terabyte = 1024 ^ 4 := by decide
  have k5 : Petabyte = 1024 ^ 5 := by decide
  unfold SizeString
  simp only [ha, e1, e2, e3, e4, e5, e6, k1, k2, k3, k4, k5, Bytes]
  refine ⟨?_, ?_, ?_, ?_, ?_, ?_⟩
  · intro h
    rw [if_pos (by omega)]
  · intro a b
    rw [if_neg (by omega), if_pos (by omega)]
  · intro a b
    rw [if_neg (by omega), if_neg (by omega), if_pos (by omega)]
  · intro a b
    rw [if_neg (by omega), if_neg (by omega), if_neg (by omega), if_pos (by omega)]
  · intro a b
    rw [if_neg (by omega), if_neg (by omega), if_neg (by omega), if_neg (by omega),
      if_pos (by omega)]
  · intro a
    rw [if_neg (by omega), if_neg (by omega), if_neg (by omega), if_neg (by omega),
      if_neg (by omega)]


theorem FormatInt_spec (s : Int) :
    FormatInt s = (if s < 0 then "-" else "") ++ Nat.repr s.natAbs := by
  unfold FormatInt
  split_ifs
  · rfl
  · apply String.ext
    simp [String.data_append]


/-! ## Lemmas on the conversion to `float64` and on the division -/

/-- The sign of a rounded number is the sign asked for. -/
theorem round_sign (neg : Bool) (N D : Nat) (s : Bool) (m : Nat) (e : Int)
    (h : F64.round neg N D = F64.fin s m e) : s = neg := by
  unfold F64.round at h
  simp only at h
  split_ifs at h <;> injection h with a _ _ <;> exact a.symm

/-- The conversion of an integer that binary64 holds is exact. -/
theorem ofInt_exact (s : Int) (M E : Nat) (hM : M < 2 ^ 53) (hq : s.natAbs = M * 2 ^ E)
    (hle : s.natAbs ≤ 2 ^ 63) :
    ∃ (m : Nat) (e : Int), F64.ofInt s = F64.fin (decide (s < 0)) m e ∧
      (m : ℚ) * (2 : ℚ) ^ e = (s.natAbs : ℚ) := by
  have h1 : ((s.natAbs : Nat) : ℚ) / ((1 : Nat) : ℚ) = (s.natAbs : ℚ) := by simp
  obtain ⟨m, e, a, b⟩ := round_exact_zero (decide (s < 0)) s.natAbs 1 M (E : Int)
    (by norm_num) hM (by omega) (by rw [h1]; exact representable_nat _ M E hq)
    (by
      rw [h1]
      have : ((s.natAbs : Nat) : ℚ) ≤ ((2 ^ 63 : Nat) : ℚ) := by exact_mod_cast hle
      have h63 : (((2 ^ 63 : Nat)) : ℚ) = (2 : ℚ) ^ (63 : Int) := by norm_num
      rw [h63] at this
      exact lt_of_le_of_lt this (zpow_lt_zpow_right₀ (by norm_num) (by norm_num)))
  exact ⟨m, e, a, by rw [b, h1]⟩

/-- The ratio of the two naturals that `F64.div` rounds is the quotient of the
values. -/
theorem div_ratio (m1 m2 : Nat) (e1 e2 : Int) :
    ((m1 * 2 ^ e1.toNat * 2 ^ (-e2).toNat : Nat) : ℚ) /
        ((m2 * 2 ^ e2.toNat * 2 ^ (-e1).toNat : Nat) : ℚ) =
      (m1 : ℚ) * (2 : ℚ) ^ e1 / ((m2 : ℚ) * (2 : ℚ) ^ e2) := by
  rw [two_zpow_split e1, two_zpow_split e2]
  push_cast
  have a1 : ((2 : ℚ) ^ e1.toNat) ≠ 0 := by positivity
  have a2 : ((2 : ℚ) ^ (-e1).toNat) ≠ 0 := by positivity
  have a3 : ((2 : ℚ) ^ e2.toNat) ≠ 0 := by positivity
  have a4 : ((2 : ℚ) ^ (-e2).toNat) ≠ 0 := by positivity
  by_cases hm : (m2 : ℚ) = 0
  · simp [hm]
  · rw [div_eq_div_iff (by positivity) (by positivity)]
    field_simp
    ring

/-- The quotient by a positive value is exact when it is a number binary64
holds. -/
theorem div_exact (s1 : Bool) (m1 m2 M : Nat) (e1 e2 E : Int) (hm2 : m2 ≠ 0)
    (hM : M < 2 ^ 53) (hE : -1074 ≤ E)
    (hq : (m1 : ℚ) * (2 : ℚ) ^ e1 / ((m2 : ℚ) * (2 : ℚ) ^ e2) = M * (2 : ℚ) ^ E)
    (hlt : (m1 : ℚ) * (2 : ℚ) ^ e1 / ((m2 : ℚ) * (2 : ℚ) ^ e2) < (2 : ℚ) ^ (1024 : Int)) :
    ∃ (m : Nat) (e : Int),
      F64.div (F64.fin s1 m1 e1) (F64.fin false m2 e2) = F64.fin s1 m e ∧
      (m : ℚ) * (2 : ℚ) ^ e = (m1 : ℚ) * (2 : ℚ) ^ e1 / ((m2 : ℚ) * (2 : ℚ) ^ e2) := by
  have hv := div_ratio m1 m2 e1 e2
  have hD : 0 < m2 * 2 ^ e2.toNat * 2 ^ (-e1).toNat := by
    have : 0 < m2 := Nat.pos_of_ne_zero hm2
    positivity
  obtain ⟨m, e, h1, h2⟩ := round_exact_zero s1 (m1 * 2 ^ e1.toNat * 2 ^ (-e2).toNat)
    (m2 * 2 ^ e2.toNat * 2 ^ (-e1).toNat) M E hD hM hE (by rw [hv]; exact hq)
    (by rw [hv]; exact hlt)
  refine ⟨m, e, ?_, by rw [h2, hv]⟩
  simp only [F64.div, hm2, if_false, Bool.xor_false]
  exact h1

/-- The accessors are exact: the integer `s`, when binary64 holds it, divided
by the `float64` of `1024^j` is the `float64` of value `|s| / 1024^j`, with the
sign of `s`. -/
theorem accessor_exact (s : Int) (M E j : Nat) (hM : M < 2 ^ 53) (hq : s.natAbs = M * 2 ^ E)
    (hle : s.natAbs ≤ 2 ^ 63) (hj : j ≤ 5) :
    ∃ (m : Nat) (e : Int),
      F64.div (F64.ofInt s) (F64.fin false (2 ^ 52) (10 * (j : Int) - 52)) =
        F64.fin (decide (s < 0)) m e ∧
      (m : ℚ) * (2 : ℚ) ^ e = (s.natAbs : ℚ) / ((1024 ^ j : Nat) : ℚ) := by
  have two0 : (2 : ℚ) ≠ 0 := by norm_num
  obtain ⟨m0, e0, a, b⟩ := ofInt_exact s M E hM hq hle
  have hu := unit_float_value j
  have hquot : (m0 : ℚ) * (2 : ℚ) ^ e0 /
      (((2 ^ 52 : Nat) : ℚ) * (2 : ℚ) ^ (10 * (j : Int) - 52)) =
      (s.natAbs : ℚ) / ((1024 ^ j : Nat) : ℚ) := by
    rw [b, hu]
  have hME : (s.natAbs : ℚ) / ((1024 ^ j : Nat) : ℚ) =
      (M : ℚ) * (2 : ℚ) ^ ((E : Int) - 10 * (j : Int)) := by
    rw [representable_nat _ M E hq, zpow_sub₀ two0, mul_div_assoc]
    congr 2
    push_cast
    rw [zpow_mul, zpow_natCast]
    norm_num
  have hpos : (1 : ℚ) ≤ ((1024 ^ j : Nat) : ℚ) := by
    have : 1 ≤ 1024 ^ j := Nat.one_le_pow _ _ (by norm_num)
    exact_mod_cast this
  have hlt : (s.natAbs : ℚ) / ((1024 ^ j : Nat) : ℚ) < (2 : ℚ) ^ (1024 : Int) := by
    have h1 : (s.natAbs : ℚ) / ((1024 ^ j : Nat) : ℚ) ≤ (s.natAbs : ℚ) :=
      div_le_self (by positivity) hpos
    have h2 : ((s.natAbs : Nat) : ℚ) ≤ ((2 ^ 63 : Nat) : ℚ) := by exact_mod_cast hle
    have h63 : (((2 ^ 63 : Nat)) : ℚ) = (2 : ℚ) ^ (63 : Int) := by norm_num
    rw [h63] at h2
    exact lt_of_le_of_lt (le_trans h1 h2) (zpow_lt_zpow_right₀ (by norm_num) (by norm_num))
  obtain ⟨m, e, c, d⟩ := div_exact (decide (s < 0)) m0 (2 ^ 52) M e0 (10 * (j : Int) - 52)
    ((E : Int) - 10 * (j : Int)) (by norm_num) hM (by omega) (by rw [hquot]; exact hME)
    (by rw [hquot]; exact hlt)
  exact ⟨m, e, by rw [a]; exact c, by rw [d, hquot]⟩


/-- The five accessors as quotients by the `float64` of `1024^j`. -/
theorem accessors_form (s : Int) :
    Kilobytes s = F64.div (F64.ofInt s) (F64.fin false (2 ^ 52) (10 * ((1 : Nat) : Int) - 52)) ∧
    Megabytes s = F64.div (F64.ofInt s) (F64.fin false (2 ^ 52) (10 * ((2 : Nat) : Int) - 52)) ∧
    Gigabytes s = F64.div (F64.ofInt s) (F64.fin false (2 ^ 52) (10 * ((3 : Nat) : Int) - 52)) ∧
    Terabytes s = F64.div (F64.ofInt s) (F64.fin false (2 ^ 52) (10 * ((4 : Nat) : Int) - 52)) ∧
    Petabytes s = F64.div (F64.ofInt s) (F64.fin false (2 ^ 52) (10 * ((5 : Nat) : Int) - 52)) := by
  obtain ⟨k1, k2, k3, k4, k5⟩ := ofInt_units
  unfold Kilobytes Megabytes Gigabytes Terabytes Petabytes
  rw [k1, k2, k3, k4, k5]
  norm_num

/-- The value of an accessor on an integer that binary64 holds. -/
theorem accessor_toRat (s : Int) (M E j : Nat) (hM : M < 2 ^ 53) (hq : s.natAbs = M * 2 ^ E)
    (hle : s.natAbs ≤ 2 ^ 63) (hj : j ≤ 5) :
    (F64.div (F64.ofInt s) (F64.fin false (2 ^ 52) (10 * (j : Int) - 52))).toRat =
      (s : ℚ) / ((1024 ^ j : Nat) : ℚ) := by
  obtain ⟨m, e, a, b⟩ := accessor_exact s M E j hM hq hle hj
  rw [a]
  unfold F64.toRat
  by_cases hs : s < 0
  · have : (s : ℚ) = -((s.natAbs : Nat) : ℚ) := by
      have h0 : -((s.natAbs : Nat) : Int) = s := by omega
      rw [← Int.cast_natCast, ← Int.cast_neg, h0]
    simp only [hs, decide_True, if_true]
    rw [mul_assoc, b, this]
    ring
  · have : (s : ℚ) = ((s.natAbs : Nat) : ℚ) := by
      have h0 : ((s.natAbs : Nat) : Int) = s := by omega
      rw [← Int.cast_natCast, h0]
    simp only [hs, decide_False, Bool.false_eq_true, if_false]
    rw [mul_assoc, b, this]
    simp


/-! ## Lemmas on the formatting with two decimal places -/

theorem roundHalfEven_scale (k N D : Nat) (hk : 0 < k) :
    roundHalfEven (k * N) (k * D) = roundHalfEven N D := by
  unfold roundHalfEven
  simp only [Nat.mul_div_mul_left N D hk, Nat.mul_mod_mul_left]
  have e1 : 2 * (k * (N % D)) < k * D ↔ 2 * (N % D) < D := by
    rw [show 2 * (k * (N % D)) = k * (2 * (N % D)) by ring]
    exact Nat.mul_lt_mul_left hk
  have e2 : k * D < 2 * (k * (N % D)) ↔ D < 2 * (N % D) := by
    rw [show 2 * (k * (N % D)) = k * (2 * (N % D)) by ring]
    exact Nat.mul_lt_mul_left hk
  simp only [e1, e2]

/-- The rounding to the nearest integer depends on the ratio only. -/
theorem roundHalfEven_ratio (N1 D1 N2 D2 : Nat) (h1 : 0 < D1) (h2 : 0 < D2)
    (h : N1 * D2 = N2 * D1) : roundHalfEven N1 D1 = roundHalfEven N2 D2 := by
  rw [← roundHalfEven_scale D2 N1 D1 h2, ← roundHalfEven_scale D1 N2 D2 h1]
  rw [show D2 * N1 = D1 * N2 by rw [Nat.mul_comm D2 N1, h, Nat.mul_comm],
    Nat.mul_comm D2 D1]

theorem roundHalfEven_ge_of_le (N D I : Nat) (hD : 0 < D) (h : I * D ≤ N) :
    I ≤ roundHalfEven N D := by
  have hq : I ≤ N / D := (Nat.le_div_iff_mul_le hD).2 h
  unfold roundHalfEven
  simp only
  split_ifs <;> omega

/-- The text of a `float64` whose value is the ratio `a / b`: the hundredths are
`100 * a / b` rounded to the nearest integer. -/
theorem FormatFloat2_ratio (neg : Bool) (m : Nat) (e : Int) (a b : Nat) (hb : 0 < b)
    (h : (m : ℚ) * (2 : ℚ) ^ e = (a : ℚ) / (b : ℚ)) :
    FormatFloat2 (F64.fin neg m e) =
      (if neg then "-" else "") ++ twoDecimals (roundHalfEven (100 * a) b) := by
  have hbq : (b : ℚ) ≠ 0 := by
    have : 0 < (b : ℚ) := by exact_mod_cast hb
    exact ne_of_gt this
  have key : m * 2 ^ e.toNat * 100 * b = 100 * a * 2 ^ (-e).toNat := by
    have hp : ((2 : ℚ) ^ (-e).toNat) ≠ 0 := by positivity
    rw [two_zpow_split e] at h
    field_simp at h
    have : ((m * 2 ^ e.toNat * 100 * b : Nat) : ℚ) = ((100 * a * 2 ^ (-e).toNat : Nat) : ℚ) := by
      push_cast
      linarith
    exact_mod_cast this
  unfold FormatFloat2
  simp only
  rw [roundHalfEven_ratio (m * 2 ^ e.toNat * 100) (2 ^ (-e).toNat) (100 * a) b
    (by positivity) hb key]

theorem bracketUnit_pos (n : Nat) : 0 < (bracketUnit n).1 := by
  unfold bracketUnit
  split_ifs <;> norm_num

/-- The text of a `Size` of absolute value at least 1024: which accessor is
formatted, and with which unit. -/
theorem SizeString_large (s : Int) (h1 : -2 ^ 63 < s) (h2 : s < 2 ^ 63)
    (h3 : 1024 ≤ s.natAbs) :
    ∃ j : Nat, 1 ≤ j ∧ j ≤ 5 ∧ (bracketUnit s.natAbs).1 = 1024 ^ j ∧
      1024 ^ j ≤ s.natAbs ∧ (j < 5 → s.natAbs < 1024 ^ (j + 1)) ∧
      SizeString s =
        FormatFloat2 (F64.div (F64.ofInt s) (F64.fin false (2 ^ 52) (10 * (j : Int) - 52))) ++
          " " ++ (bracketUnit s.natAbs).2 := by
  obtain ⟨_, b1, b2, b3, b4, b5⟩ := SizeString_bracket s h1 h2
  obtain ⟨f1, f2, f3, f4, f5⟩ := accessors_form s
  have sp : ∀ (x : String) (u : String), x ++ " " ++ u = x ++ (" " ++ u) :=
    fun x u => String.append_assoc x " " u
  unfold bracketUnit
  rcases Nat.lt_or_ge s.natAbs (1024 ^ 2) with c1 | c1
  · refine ⟨1, by norm_num, by norm_num, by rw [if_pos c1]; norm_num, by omega,
      fun _ => by omega, ?_⟩
    rw [if_pos c1, b1 h3 c1, f1, sp]
    rfl
  rcases Nat.lt_or_ge s.natAbs (1024 ^ 3) with c2 | c2
  · refine ⟨2, by norm_num, by norm_num, by rw [if_neg (by omega), if_pos c2], by omega,
      fun _ => by omega, ?_⟩
    rw [if_neg (by omega), if_pos c2, b2 c1 c2, f2, sp]
    rfl
  rcases Nat.lt_or_ge s.natAbs (1024 ^ 4) with c3 | c3
  · refine ⟨3, by norm_num, by norm_num,
      by rw [if_neg (by omega), if_neg (by omega), if_pos c3], by omega, fun _ => by omega, ?_⟩
    rw [if_neg (by omega), if_neg (by omega), if_pos c3, b3 c2 c3, f3, sp]
    rfl
  rcases Nat.lt_or_ge s.natAbs (1024 ^ 5) with c4 | c4
  · refine ⟨4, by norm_num, by norm_num,
      by rw [if_neg (by omega), if_neg (by omega), if_neg (by omega), if_pos c4], by omega,
      fun _ => by omega, ?_⟩
    rw [if_neg (by omega), if_neg (by omega), if_neg (by omega), if_pos c4, b4 c3 c4, f4, sp]
    rfl
  · refine ⟨5, by norm_num, by norm_num,
      by rw [if_neg (by omega), if_neg (by omega), if_neg (by omega), if_neg (by omega)],
      by omega, fun h => by omega, ?_⟩
    rw [if_neg (by omega), if_neg (by omega), if_neg (by omega), if_neg (by omega), b5 c4, f5,
      sp]
    rfl

/-- The text of a `Size` that binary64 holds, of absolute value `n ≥ 1024`: the
sign, the hundredths `100 * n / mult` rounded to the nearest integer, and the
unit. -/
theorem SizeString_rounded (s : Int) (M E : Nat) (h1 : -2 ^ 63 < s) (h2 : s < 2 ^ 63)
    (h3 : 1024 ≤ s.natAbs) (hM : M < 2 ^ 53) (hq : s.natAbs = M * 2 ^ E) :
    SizeString s =
      (if s < 0 then "-" else "") ++
        twoDecimals (roundHalfEven (100 * s.natAbs) (bracketUnit s.natAbs).1) ++ " " ++
        (bracketUnit s.natAbs).2 := by
  obtain ⟨j, j1, j5, hu, _, _, hS⟩ := SizeString_large s h1 h2 h3
  obtain ⟨m, e, a, b⟩ := accessor_exact s M E j hM hq (by omega) j5
  rw [hS, a, FormatFloat2_ratio _ m e s.natAbs (1024 ^ j) (by positivity) b, hu]
  simp only [decide_eq_true_eq]


/-! ## Bounds that hold for every `int64` -/

/-- Rounding does not cross a power of two: a number up to `2^K` is rounded to
a finite `float64` up to `2^K`. -/
theorem round_bound (neg : Bool) (N D : Nat) (K : Int) (hD : 0 < D) (hK1 : -1074 ≤ K)
    (hK2 : K ≤ 1023) (h : (N : ℚ) / D ≤ (2 : ℚ) ^ K) :
    ∃ (m : Nat) (e : Int), F64.round neg N D = F64.fin neg m e ∧
      (m : ℚ) * (2 : ℚ) ^ e ≤ (2 : ℚ) ^ K := by
  have two1 : (1 : ℚ) < 2 := by norm_num
  have two0 : (2 : ℚ) ≠ 0 := by norm_num
  rcases Nat.eq_zero_or_pos N with hN | hN
  · subst hN
    refine ⟨0, -1074, by simp [F64.round], ?_⟩
    have : (0 : ℚ) < (2 : ℚ) ^ K := by positivity
    simp only [Nat.cast_zero, zero_mul]
    exact this.le
  obtain ⟨k1, k2⟩ := floorLog2_spec N D hN hD
  have hk : floorLog2 N D ≤ K := (zpow_le_zpow_iff_right₀ two1).1 (le_trans k1 h)
  obtain ⟨e0, he0⟩ : ∃ e0 : Int, e0 = max (floorLog2 N D - 52) (-1074) := ⟨_, rfl⟩
  have h1 : e0 ≤ K := by rw [he0]; exact max_le (by omega) hK1
  have h3 : e0 ≤ 971 := by rw [he0]; exact max_le (by omega) (by norm_num)
  have hD' : 0 < D * 2 ^ e0.toNat := by positivity
  have hD'q : (0 : ℚ) < ((D * 2 ^ e0.toNat : Nat) : ℚ) := by exact_mod_cast hD'
  -- the bound `I = 2^(K - e0)` on the scaled quotient
  have hI : ((2 ^ (K - e0).toNat : Nat) : ℚ) = (2 : ℚ) ^ (K - e0) := by
    push_cast
    rw [← zpow_natCast, Int.toNat_of_nonneg (by omega)]
  have hIe : ((2 ^ (K - e0).toNat : Nat) : ℚ) * (2 : ℚ) ^ e0 = (2 : ℚ) ^ K := by
    rw [hI, ← zpow_add₀ two0]
    congr 1
    ring
  have hx : ((N * 2 ^ (-e0).toNat : Nat) : ℚ) / ((D * 2 ^ e0.toNat : Nat) : ℚ) ≤
      ((2 ^ (K - e0).toNat : Nat) : ℚ) := by
    rw [scaled_eq N D e0, div_le_iff₀ (by positivity), hIe]
    exact h
  have hNat : N * 2 ^ (-e0).toNat ≤ 2 ^ (K - e0).toNat * (D * 2 ^ e0.toNat) := by
    rw [div_le_iff₀ hD'q] at hx
    exact_mod_cast hx
  have hm : roundHalfEven (N * 2 ^ (-e0).toNat) (D * 2 ^ e0.toNat) ≤ 2 ^ (K - e0).toNat := by
    apply roundHalfEven_le _ _ _ hD'
    have e : (2 * 2 ^ (K - e0).toNat + 1) * (D * 2 ^ e0.toNat) =
        2 * (2 ^ (K - e0).toNat * (D * 2 ^ e0.toNat)) + D * 2 ^ e0.toNat := by ring
    omega
  have hmq : ((roundHalfEven (N * 2 ^ (-e0).toNat) (D * 2 ^ e0.toNat) : Nat) : ℚ) *
      (2 : ℚ) ^ e0 ≤ (2 : ℚ) ^ K := by
    rw [← hIe]
    apply mul_le_mul_of_nonneg_right _ (by positivity)
    exact_mod_cast hm
  unfold F64.round
  simp only [Nat.pos_iff_ne_zero.1 hN, if_false, ← he0]
  by_cases hm53 : roundHalfEven (N * 2 ^ (-e0).toNat) (D * 2 ^ e0.toNat) = 2 ^ 53
  · simp only [hm53, if_true]
    have h53 : 53 ≤ (K - e0).toNat := by
      rw [hm53] at hm
      exact (Nat.pow_le_pow_iff_right (by norm_num)).1 hm
    rw [if_neg (by omega)]
    refine ⟨_, _, rfl, ?_⟩
    rw [hm53] at hmq
    have : ((2 ^ 52 : Nat) : ℚ) * (2 : ℚ) ^ (e0 + 1) = ((2 ^ 53 : Nat) : ℚ) * (2 : ℚ) ^ e0 := by
      rw [zpow_add₀ two0]
      norm_num
      ring
    rw [this]
    exact hmq
  · simp only [hm53, if_false]
    rw [if_neg (by omega)]
    exact ⟨_, _, rfl, hmq⟩

/-- The `float64` of any `int64` is finite, has the sign of the integer and is
at most `2^63` in absolute value. -/
theorem ofInt_bound (s : Int) (h1 : -2 ^ 63 ≤ s) (h2 : s < 2 ^ 63) :
    ∃ (m : Nat) (e : Int), F64.ofInt s = F64.fin (decide (s < 0)) m e ∧
      (m : ℚ) * (2 : ℚ) ^ e ≤ (2 : ℚ) ^ (63 : Int) := by
  have hle : s.natAbs ≤ 2 ^ 63 := by omega
  have hq : ((s.natAbs : Nat) : ℚ) / ((1 : Nat) : ℚ) ≤ (2 : ℚ) ^ (63 : Int) := by
    have : ((s.natAbs : Nat) : ℚ) ≤ ((2 ^ 63 : Nat) : ℚ) := by exact_mod_cast hle
    have h63 : (((2 ^ 63 : Nat)) : ℚ) = (2 : ℚ) ^ (63 : Int) := by norm_num
    rw [h63] at this
    simpa using this
  exact round_bound (decide (s < 0)) s.natAbs 1 63 (by norm_num) (by norm_num) (by norm_num) hq

/-- Every accessor is finite on every `int64`, with the sign of the integer and
at most `2^63` in absolute value. -/
theorem accessor_bound (s : Int) (j : Nat) (h1 : -2 ^ 63 ≤ s) (h2 : s < 2 ^ 63) :
    ∃ (m : Nat) (e : Int),
      F64.div (F64.ofInt s) (F64.fin false (2 ^ 52) (10 * (j : Int) - 52)) =
        F64.fin (decide (s < 0)) m e ∧
      (m : ℚ) * (2 : ℚ) ^ e ≤ (2 : ℚ) ^ (63 : Int) := by
  obtain ⟨m0, e0, a, b⟩ := ofInt_bound s h1 h2
  have hu := unit_float_value j
  have hpos : (1 : ℚ) ≤ ((1024 ^ j : Nat) : ℚ) := by
    have : 1 ≤ 1024 ^ j := Nat.one_le_pow _ _ (by norm_num)
    exact_mod_cast this
  have hquot : (m0 : ℚ) * (2 : ℚ) ^ e0 /
      (((2 ^ 52 : Nat) : ℚ) * (2 : ℚ) ^ (10 * (j : Int) - 52)) ≤ (2 : ℚ) ^ (63 : Int) := by
    rw [hu]
    exact le_trans (div_le_self (by positivity) hpos) b
  have hD : 0 < 2 ^ 52 * 2 ^ (10 * (j : Int) - 52).toNat * 2 ^ (-e0).toNat := by positivity
  obtain ⟨m, e, c, d⟩ := round_bound (decide (s < 0))
    (m0 * 2 ^ e0.toNat * 2 ^ (-(10 * (j : Int) - 52)).toNat)
    (2 ^ 52 * 2 ^ (10 * (j : Int) - 52).toNat * 2 ^ (-e0).toNat) 63 hD (by norm_num)
    (by norm_num) (by rw [div_ratio]; exact hquot)
  refine ⟨m, e, ?_, d⟩
  rw [a]
  simp only [F64.div, Bool.xor_false]
  rw [if_neg (by norm_num)]
  exact c


/-! ## Lemmas on the shape of the text of a `Size` -/

theorem isDigits_head {l : List Char} (h : isDigits l = true) :
    ∃ d t, l = d :: t ∧ isDigit d = true := by
  cases l with
  | nil => simp [isDigits] at h
  | cons d t => exact ⟨d, t, rfl, all_of_isDigits h d (List.mem_cons_self _ _)⟩

theorem twoDecimals_data (R : Nat) :
    (twoDecimals R).data =
      (Nat.repr (R / 100)).data ++
        ['.', Nat.digitChar (R / 10 % 10), Nat.digitChar (R % 10)] := by
  unfold twoDecimals
  simp [String.data_append]

theorem FormatFloat2_data (neg : Bool) (m : Nat) (e : Int) :
    (FormatFloat2 (F64.fin neg m e)).data =
      (if neg then ['-'] else []) ++
        (twoDecimals (roundHalfEven (m * 2 ^ e.toNat * 100) (2 ^ (-e).toNat))).data := by
  unfold FormatFloat2
  simp only [String.data_append]
  cases neg <;> rfl

theorem FormatInt_data (s : Int) :
    (FormatInt s).data = (if s < 0 then ['-'] else []) ++ (Nat.repr s.natAbs).data := by
  rw [FormatInt_spec, String.data_append]
  split_ifs <;> rfl

/-- A sign, a text that starts with a digit, and a rest: the text starts with
`-` exactly when the sign is set, and a digit comes next. -/
theorem signed_head (neg : Bool) (body rest : List Char) (hb : ∃ d t, body = d :: t ∧
    isDigit d = true) (out : List Char)
    (ho : out = (if neg then ['-'] else []) ++ body ++ rest) :
    (out.head? = some '-' ↔ neg = true) ∧
      (neg = true → ∃ d r, out = '-' :: d :: r ∧ isDigit d = true) ∧
      (neg = false → ∃ d r, out = d :: r ∧ isDigit d = true) := by
  obtain ⟨d, t, hd, hdig⟩ := hb
  subst hd
  have hne : d ≠ '-' := by
    intro h
    rw [h] at hdig
    exact absurd hdig (by decide)
  cases neg with
  | true =>
    simp only [if_true, List.singleton_append, List.cons_append] at ho
    subst ho
    exact ⟨by simp, fun _ => ⟨d, t ++ rest, rfl, hdig⟩, fun h => Bool.noConfusion h⟩
  | false =>
    simp only [Bool.false_eq_true, if_false, List.nil_append, List.cons_append] at ho
    subst ho
    exact ⟨by simp [hne], fun h => Bool.noConfusion h, fun _ => ⟨d, t ++ rest, rfl, hdig⟩⟩

/-- The text of any `Size`: a `-` exactly when the `Size` is negative, a run
of digits, and a rest. -/
theorem SizeString_shape (s : Int) (h1 : -2 ^ 63 ≤ s) (h2 : s < 2 ^ 63) :
    ∃ body rest : List Char, (∃ d t, body = d :: t ∧ isDigit d = true) ∧
      (SizeString s).data = (if decide (s < 0) = true then ['-'] else []) ++ body ++ rest := by
  rcases eq_or_lt_of_le h1 with hmin | hlt
  · rw [← hmin]
    exact ⟨"9223372036854775808".data, " B".data, ⟨'9', "223372036854775808".data, by decide,
      by decide⟩, by decide⟩
  rcases Nat.lt_or_ge s.natAbs 1024 with c | c
  · rw [(SizeString_bracket s hlt h2).1 c, String.data_append, FormatInt_data]
    refine ⟨(Nat.repr s.natAbs).data, (" B" : String).data,
      isDigits_head (repr_spec s.natAbs).1, ?_⟩
    simp only [decide_eq_true_eq]
  · obtain ⟨j, _, _, _, _, _, hS⟩ := SizeString_large s hlt h2 c
    obtain ⟨m, e, a, _⟩ := accessor_bound s j h1 h2
    rw [hS, a, String.data_append, String.data_append, FormatFloat2_data, twoDecimals_data]
    refine ⟨(Nat.repr (roundHalfEven (m * 2 ^ e.toNat * 100) (2 ^ (-e).toNat) / 100)).data,
      ['.', Nat.digitChar (roundHalfEven (m * 2 ^ e.toNat * 100) (2 ^ (-e).toNat) / 10 % 10),
        Nat.digitChar (roundHalfEven (m * 2 ^ e.toNat * 100) (2 ^ (-e).toNat) % 10)] ++
        ((" " : String).data ++ (bracketUnit s.natAbs).2.data),
      isDigits_head (repr_spec _).1, ?_⟩
    simp only [List.append_assoc]


/-! ## Lemmas on parsing the text of a `Size` -/

theorem ParseSize_head_fail (s : String) (c : Char) (t : List Char) (hs : s.data = c :: t)
    (hc : isDigit c = false) : ParseSize s = (0, some ("invalid size: " ++ s)) := by
  apply ParseSize_no_match
  unfold FindStringSubmatch
  simp [hs, List.takeWhile_cons, hc]

theorem threshold_ge :
    (2 : ℚ) ^ (1023 : Int) ≤ (2 : ℚ) ^ (1024 : Int) - (2 : ℚ) ^ (970 : Int) := by
  have two0 : (2 : ℚ) ≠ 0 := by norm_num
  have a : (2 : ℚ) ^ (1024 : Int) = 2 * (2 : ℚ) ^ (1023 : Int) := by
    rw [show (1024 : Int) = 1 + 1023 by norm_num, zpow_add₀ two0]; norm_num
  have b : (2 : ℚ) ^ (970 : Int) ≤ (2 : ℚ) ^ (1023 : Int) :=
    zpow_le_zpow_right₀ (by norm_num) (by norm_num)
  linarith

/-- The hundredths printed for a `float64` of absolute value up to `2^63`. -/
theorem hundredths_bound (m : Nat) (e : Int) (h : (m : ℚ) * (2 : ℚ) ^ e ≤ (2 : ℚ) ^ (63 : Int)) :
    roundHalfEven (m * 2 ^ e.toNat * 100) (2 ^ (-e).toNat) ≤ 100 * 2 ^ 63 := by
  have hD : 0 < 2 ^ (-e).toNat := by positivity
  apply roundHalfEven_le _ _ _ hD
  have hp : (0 : ℚ) < (2 : ℚ) ^ (-e).toNat := by positivity
  rw [two_zpow_split e, mul_div_assoc', div_le_iff₀ hp] at h
  have h63 : (2 : ℚ) ^ (63 : Int) = ((2 ^ 63 : Nat) : ℚ) := by norm_num
  rw [h63] at h
  have hn : m * 2 ^ e.toNat ≤ 2 ^ 63 * 2 ^ (-e).toNat := by exact_mod_cast h
  have e1 : (2 * (100 * 2 ^ 63) + 1) * 2 ^ (-e).toNat =
      200 * (2 ^ 63 * 2 ^ (-e).toNat) + 2 ^ (-e).toNat := by ring
  rw [e1]
  omega

/-- The value of the text `twoDecimals R` as the parser reads it. -/
theorem twoDecimals_value (R : Nat) :
    isDigits (Nat.repr (R / 100)).data = true ∧
      isFractionText ['.', Nat.digitChar (R / 10 % 10), Nat.digitChar (R % 10)] = true ∧
      decimalValue (Nat.repr (R / 100)).data
        ['.', Nat.digitChar (R / 10 % 10), Nat.digitChar (R % 10)] = (R : ℚ) / 100 := by
  obtain ⟨r1, r2⟩ := repr_spec (R / 100)
  obtain ⟨a1, a2⟩ := digitChar_spec (R / 10 % 10) (Nat.mod_lt _ (by norm_num))
  obtain ⟨b1, b2⟩ := digitChar_spec (R % 10) (Nat.mod_lt _ (by norm_num))
  refine ⟨r1, ?_, ?_⟩
  · simp [isFractionText, isDigits, a1, b1]
  · unfold decimalValue
    have hv : digitsValue ((Nat.repr (R / 100)).data ++
        [Nat.digitChar (R / 10 % 10), Nat.digitChar (R % 10)]) = R := by
      have : (Nat.repr (R / 100)).data ++
          [Nat.digitChar (R / 10 % 10), Nat.digitChar (R % 10)] =
          ((Nat.repr (R / 100)).data ++ [Nat.digitChar (R / 10 % 10)]) ++
            [Nat.digitChar (R % 10)] := by simp
      rw [this, digitsValue_snoc, digitsValue_snoc, r2, a2, b2]
      omega
    simp only [List.drop_succ_cons, List.drop_zero, List.length_cons, List.length_nil]
    rw [hv]
    norm_num

theorem bracketUnit_unitText (n : Nat) : isUnitText (bracketUnit n).2.data = true := by
  unfold bracketUnit
  split_ifs <;> decide

/-- The text of a non-negative `Size` of at least 1024 is accepted by the
parser. -/
theorem ParseSize_large_text (s : Int) (h0 : 0 ≤ s) (h2 : s < 2 ^ 63) (h3 : 1024 ≤ s.natAbs) :
    (ParseSize (SizeString s)).2 = none := by
  obtain ⟨j, _, _, _, _, _, hS⟩ := SizeString_large s (by omega) h2 h3
  obtain ⟨m, e, a, b⟩ := accessor_bound s j (by omega) h2
  have hneg : decide (s < 0) = false := by
    rw [decide_eq_false_iff_not]; omega
  rw [hneg] at a
  obtain ⟨R, hR⟩ : ∃ R, R = roundHalfEven (m * 2 ^ e.toNat * 100) (2 ^ (-e).toNat) := ⟨_, rfl⟩
  have hRb : R ≤ 100 * 2 ^ 63 := by rw [hR]; exact hundredths_bound m e b
  obtain ⟨v1, v2, v3⟩ := twoDecimals_value R
  have hdata : (SizeString s).data = (Nat.repr (R / 100)).data ++
      ['.', Nat.digitChar (R / 10 % 10), Nat.digitChar (R % 10)] ++ [' '] ++
      (bracketUnit s.natAbs).2.data := by
    rw [hS, a, String.data_append, String.data_append, FormatFloat2_data, ← hR,
      twoDecimals_data]
    simp
  have hstr : SizeString s = String.mk ((Nat.repr (R / 100)).data ++
      ['.', Nat.digitChar (R / 10 % 10), Nat.digitChar (R % 10)] ++ [' '] ++
      (bracketUnit s.natAbs).2.data) := by
    rw [← hdata]
  rw [hstr, ParseSize_succeeds_iff v1 v2 (by decide) (bracketUnit_unitText _), v3]
  have h1 : (R : ℚ) / 100 ≤ (R : ℚ) := div_le_self (by positivity) (by norm_num)
  have h2 : (R : ℚ) ≤ ((100 * 2 ^ 63 : Nat) : ℚ) := by exact_mod_cast hRb
  have h3 : ((100 * 2 ^ 63 : Nat) : ℚ) < (2 : ℚ) ^ (1023 : Int) := by
    have : ((100 * 2 ^ 63 : Nat) : ℚ) ≤ (2 : ℚ) ^ (70 : Int) := by norm_num
    exact lt_of_le_of_lt this (zpow_lt_zpow_right₀ (by norm_num) (by norm_num))
  linarith [threshold_ge]

/-- The text of a `Size` from 0 to 1023 is parsed back to the `Size`. -/
theorem ParseSize_bytes_text (s : Int) (h0 : 0 ≤ s) (h2 : s < 1024) :
    ParseSize (SizeString s) = (s, none) := by
  obtain ⟨r1, r2⟩ := repr_spec s.natAbs
  have hdata : (SizeString s).data = (Nat.repr s.natAbs).data ++ [' '] ++ ['B'] := by
    rw [(SizeString_bracket s (by omega) (by omega)).1 (by omega), String.data_append,
      FormatInt_data, if_neg (by omega)]
    simp only [List.nil_append, List.append_assoc]
    rfl
  have hstr : SizeString s = String.mk ((Nat.repr s.natAbs).data ++ [' '] ++ ['B']) := by
    rw [← hdata]
  have hu : unitMultiplier (ToUpper (String.mk ['B'])) = 1 := by decide
  have h := ParseSize_nat r1 (by decide : isSpaces [' '] = true)
    (by decide : isUnitText ['B'] = true) s.natAbs 0 (by omega) (by rw [r2]; simp)
    (by rw [r2, hu]; omega)
  rw [hstr, h, r2, hu]
  congr 1
  omega

/-! ## The claims -/

/-- C1: an input made of a run of decimal digits of value `n`, then `k` space
characters, then one of the unit tokens `""`, `B`, `K`, `KB`, `M`, `MB`, `G`,
`GB`, `T`, `TB`, `P`, `PB` of multiplier `m`, with `n ≤ 2^53` and `n * m < 2^63`,
is parsed to exactly `n * m`, without error. -/
theorem ParseSize_digits_unit (ds : List Char) (k : Nat) (u : String)
    (hds : isDigits ds = true) (hu : u ∈ unitTokens) (hn : digitsValue ds ≤ 2 ^ 53)
    (hlt : digitsValue ds * unitMultiplier u < 2 ^ 63) :
    ParseSize (String.mk (ds ++ List.replicate k ' ' ++ u.data)) =
      (((digitsValue ds * unitMultiplier u : Nat) : Int), none) := by
  obtain ⟨t1, t2⟩ := token_unitText hu
  obtain ⟨M, E, hM, hq⟩ := representable_le _ hn
  have h := ParseSize_nat hds (isSpaces_replicate k) t1 M E hM hq (by rw [t2]; exact hlt)
  rw [t2] at h
  exact h

theorem ParseSize_digits_unit_witness :
    isDigits ['2'] = true ∧ "MB" ∈ unitTokens ∧ digitsValue ['2'] ≤ 2 ^ 53 ∧
      digitsValue ['2'] * unitMultiplier "MB" < 2 ^ 63 ∧
      ParseSize (String.mk (['2'] ++ List.replicate 0 ' ' ++ "MB".data)) =
        (((digitsValue ['2'] * unitMultiplier "MB" : Nat) : Int), none) ∧
      ParseSize "2MB" = (2097152, none) ∧ ParseSize "1PB" = (1125899906842624, none) :=
  ⟨by decide, by decide, by decide, by decide,
    ParseSize_digits_unit ['2'] 0 "MB" (by decide) (by decide) (by decide) (by decide),
    ParseSize_digits_unit ['2'] 0 "MB" (by decide) (by decide) (by decide) (by decide),
    ParseSize_digits_unit ['1'] 0 "PB" (by decide) (by decide) (by decide) (by decide)⟩


/-- C2 (counterexample): `2^53 + 1 = 9007199254740993` fits in an `int64`, yet its
decimal representation is parsed to `9007199254740992`, the nearest `float64`. -/
theorem ParseSize_repr_counterexample :
    (9007199254740993 : Int) < 2 ^ 63 ∧
      ParseSize (Nat.repr 9007199254740993) = (9007199254740992, none) ∧
      ParseSize (Nat.repr 9007199254740993) ≠ (9007199254740993, none) := by
  decide

/-- C2 (amended): for every natural number `n < 2^63` that binary64 holds
exactly, that is `n = M * 2^E` with `M < 2^53` (every `n ≤ 2^53` is one),
`ParseSize` applied to the decimal representation of `n` returns `n` and no
error. -/
theorem ParseSize_repr_representable (n M E : Nat) (hn : n < 2 ^ 63) (hM : M < 2 ^ 53)
    (hq : n = M * 2 ^ E) : ParseSize (Nat.repr n) = ((n : Int), none) := by
  obtain ⟨r1, r2⟩ := repr_spec n
  have h := ParseSize_nat r1 (rfl : isSpaces [] = true) (rfl : isUnitText [] = true) M E hM
    (by rw [r2]; exact hq)
    (by rw [r2]; simpa [ToUpper, unitMultiplier] using hn)
  simp only [List.append_nil] at h
  rw [h, r2]
  simp [ToUpper, unitMultiplier]

theorem ParseSize_repr_representable_witness :
    (4611686018427387904 : Nat) < 2 ^ 63 ∧ (1 : Nat) < 2 ^ 53 ∧
      (4611686018427387904 : Nat) = 1 * 2 ^ 62 ∧
      ParseSize (Nat.repr 4611686018427387904) = (((4611686018427387904 : Nat) : Int), none) :=
  ⟨by decide, by decide, by decide,
    ParseSize_repr_representable 4611686018427387904 1 62 (by decide) (by decide) (by decide)⟩

/-- Truncation on the grammar of the expression: on every input made of integer
digits `ip`, a fraction `fp`, white space `ws` and a unit text `un` (the `B`
in upper case) whose number `q` is one binary64 holds exactly (`q = M * 2^E`
with `M < 2^53` and `-1074 ≤ E`) and whose product with the multiplier `m` of
the unit is below `2^63`, `ParseSize` returns the floor of `q * m`, the product
truncated toward zero, and no error. -/
theorem ParseSize_truncates (ip fp ws un : List Char) (M : Nat) (E : Int)
    (hip : isDigits ip = true) (hfp : isFractionText fp = true)
    (hws : isSpaces ws = true) (hun : isUnitText un = true)
    (hM : M < 2 ^ 53) (hE : -1074 ≤ E) (hq : decimalValue ip fp = M * (2 : ℚ) ^ E)
    (hlt : decimalValue ip fp * (unitMultiplier (ToUpper (String.mk un)) : ℚ) <
      (2 : ℚ) ^ (63 : Int)) :
    ParseSize (String.mk (ip ++ fp ++ ws ++ un)) =
      (⌊decimalValue ip fp * (unitMultiplier (ToUpper (String.mk un)) : ℚ)⌋, none) :=
  ParseSize_exact hip hfp hws hun M E hM hE hq hlt

theorem ParseSize_truncates_witness :
    ParseSize "1.5KB" = (1536, none) ∧ ParseSize "0.5GB" = (536870912, none) ∧
      ParseSize "1.5" = (1, none) ∧ ParseSize "0.75B" = (0, none) ∧
      ParseSize (String.mk (['1'] ++ ['.', '5'] ++ [] ++ ['K', 'B'])) =
        (⌊decimalValue ['1'] ['.', '5'] *
          (unitMultiplier (ToUpper (String.mk ['K', 'B'])) : ℚ)⌋, none) :=
  ⟨by decide, by decide, by decide, by decide,
    ParseSize_truncates ['1'] ['.', '5'] [] ['K', 'B'] 3 (-1) (by decide) (by decide)
      (by decide) (by decide) (by norm_num) (by norm_num)
      (by rw [decimalValue_one_five]; norm_num)
      (by
        have hu : unitMultiplier (ToUpper (String.mk ['K', 'B'])) = 1024 := by decide
        rw [decimalValue_one_five, hu]
        norm_num)⟩


/-- C3 (the code at the failing input): `1.5kb` is a text of the grammar of the
specification, its number `1.5 = 3 * 2^(-1)` is one binary64 holds and its
product with the multiplier 1024 is `1536 < 2^63`, yet `ParseSize` rejects it
instead of returning 1536; with the `B` in upper case, `1.5kB` and `1.5KB`, it
returns 1536. -/
theorem ParseSize_truncates_lowercase_b :
    SpecGrammar "1.5kb" ∧ decimalValue ['1'] ['.', '5'] = (3 : ℚ) * (2 : ℚ) ^ (-1 : Int) ∧
      unitMultiplier (ToUpper (String.mk ['k', 'b'])) = 1024 ∧
      ParseSize "1.5kb" = (0, some "invalid size: 1.5kb") ∧
      ParseSize "1.5kB" = (1536, none) ∧ ParseSize "1.5KB" = (1536, none) :=
  ⟨⟨['1'], ['.', '5'], 0, ['k', 'b'], by decide, by decide, by decide, by decide⟩,
    by rw [decimalValue_one_five]; norm_num, by decide, by decide, by decide, by decide⟩

/-- C4: the trailing `B` of a unit is optional.  For every number text
`ip ++ fp`, every run of `k` spaces and every unit letter `L` of `K`, `M`, `G`,
`T`, `P` in either case, the input ending in `L` and the input ending in `L`
and `B` give the same value and succeed or fail together; likewise the input
without unit and the input ending in `B`. -/
theorem ParseSize_B_optional (ip fp : List Char) (k : Nat) (L : Char)
    (hip : isDigits ip = true) (hfp : isFractionText fp = true)
    (hL : isUnitLetter L = true) :
    ((ParseSize (String.mk (ip ++ fp ++ List.replicate k ' ' ++ [L]))).1 =
        (ParseSize (String.mk (ip ++ fp ++ List.replicate k ' ' ++ [L, 'B']))).1 ∧
      ((ParseSize (String.mk (ip ++ fp ++ List.replicate k ' ' ++ [L]))).2 = none ↔
        (ParseSize (String.mk (ip ++ fp ++ List.replicate k ' ' ++ [L, 'B']))).2 = none)) ∧
    ((ParseSize (String.mk (ip ++ fp ++ List.replicate k ' '))).1 =
        (ParseSize (String.mk (ip ++ fp ++ List.replicate k ' ' ++ ['B']))).1 ∧
      ((ParseSize (String.mk (ip ++ fp ++ List.replicate k ' '))).2 = none ↔
        (ParseSize (String.mk (ip ++ fp ++ List.replicate k ' ' ++ ['B']))).2 = none)) := by
  constructor
  · exact ParseSize_same_number hip hfp (isSpaces_replicate k) (isSpaces_replicate k)
      (by simp [isUnitText, hL]) (by simp [isUnitText, hL])
      (fun number => unitSwitch_letter_B number hL)
  · have h := ParseSize_same_number hip hfp (isSpaces_replicate k) (isSpaces_replicate k)
      (rfl : isUnitText [] = true) (rfl : isUnitText ['B'] = true)
      (fun number => unitSwitch_B number)
    rw [List.append_nil] at h
    exact h

theorem ParseSize_B_optional_witness :
    ParseSize "1.5 k" = (1536, none) ∧ ParseSize "1.5 kB" = (1536, none) ∧
    ParseSize "1.5 " = (1, none) ∧ ParseSize "1.5 B" = (1, none) ∧
    (((ParseSize (String.mk (['1'] ++ ['.', '5'] ++ List.replicate 1 ' ' ++ ['k']))).1 =
        (ParseSize (String.mk (['1'] ++ ['.', '5'] ++ List.replicate 1 ' ' ++ ['k', 'B']))).1 ∧
      ((ParseSize (String.mk (['1'] ++ ['.', '5'] ++ List.replicate 1 ' ' ++ ['k']))).2 = none ↔
        (ParseSize (String.mk (['1'] ++ ['.', '5'] ++ List.replicate 1 ' ' ++ ['k', 'B']))).2 =
          none)) ∧
    ((ParseSize (String.mk (['1'] ++ ['.', '5'] ++ List.replicate 1 ' '))).1 =
        (ParseSize (String.mk (['1'] ++ ['.', '5'] ++ List.replicate 1 ' ' ++ ['B']))).1 ∧
      ((ParseSize (String.mk (['1'] ++ ['.', '5'] ++ List.replicate 1 ' '))).2 = none ↔
        (ParseSize (String.mk (['1'] ++ ['.', '5'] ++ List.replicate 1 ' ' ++ ['B']))).2 =
          none))) :=
  ⟨by decide, by decide, by decide, by decide,
    ParseSize_B_optional ['1'] ['.', '5'] 1 'k' (by decide) (by decide) (by decide)⟩

/-- C5 (the code at the failing inputs): with a lower case `b` the input is
rejected, while the same input with an upper case `B` is accepted. -/
theorem ParseSize_lowercase_b :
    ParseSize "1kb" = (0, some "invalid size: 1kb") ∧
      ParseSize "1Kb" = (0, some "invalid size: 1Kb") ∧
      ParseSize "1b" = (0, some "invalid size: 1b") ∧
      ParseSize "1KB" = (1024, none) ∧ ParseSize "1kB" = (1024, none) ∧
      ParseSize "1B" = (1, none) := by
  decide

/-- C6: spaces between number and unit do not matter.  For every number text
`ip ++ fp`, every unit token `un` (one of `""`, `B`, `K`, `KB`, `M`, `MB`, `G`,
`GB`, `T`, `TB`, `P`, `PB` once put in upper case) and every `k`, the input with
`k` space characters between number and unit gives the same value as the input
with none, and both succeed or both fail. -/
theorem ParseSize_spaces (ip fp un : List Char) (k : Nat)
    (hip : isDigits ip = true) (hfp : isFractionText fp = true)
    (hu : ToUpper (String.mk un) ∈ unitTokens) :
    (ParseSize (String.mk (ip ++ fp ++ List.replicate k ' ' ++ un))).1 =
        (ParseSize (String.mk (ip ++ fp ++ un))).1 ∧
      ((ParseSize (String.mk (ip ++ fp ++ List.replicate k ' ' ++ un))).2 = none ↔
        (ParseSize (String.mk (ip ++ fp ++ un))).2 = none) := by
  by_cases hun : isUnitText un = true
  · have h := ParseSize_same_number hip hfp (isSpaces_replicate k)
      (rfl : isSpaces [] = true) hun hun
      (fun _ => rfl)
    rw [List.append_nil] at h
    exact h
  · have h1 := ParseSize_no_match (FindStringSubmatch_bad_unit hip hfp (isSpaces_replicate k)
      (anycase_head_ok hu) hun)
    have h2 := ParseSize_no_match (FindStringSubmatch_bad_unit hip hfp
      (rfl : isSpaces [] = true)
      (anycase_head_ok hu) hun)
    rw [List.append_nil] at h2
    rw [h1, h2]
    simp

theorem ParseSize_spaces_witness :
    ParseSize "1   KB" = (1024, none) ∧ ParseSize "1KB" = (1024, none) ∧
    ((ParseSize (String.mk (['1'] ++ [] ++ List.replicate 3 ' ' ++ ['K', 'B']))).1 =
        (ParseSize (String.mk (['1'] ++ [] ++ ['K', 'B']))).1 ∧
      ((ParseSize (String.mk (['1'] ++ [] ++ List.replicate 3 ' ' ++ ['K', 'B']))).2 = none ↔
        (ParseSize (String.mk (['1'] ++ [] ++ ['K', 'B']))).2 = none)) :=
  ⟨by decide, by decide,
    ParseSize_spaces ['1'] [] ['K', 'B'] 3 (by decide) (by decide) (by decide)⟩


set_option exponentiation.threshold 2000 in
/-- C7 (counterexample): the digit `1` followed by 309 zeros is made of plain
characters and is a text of the grammar (digits, no spaces, no unit), yet
`ParseSize` fails on it: the number rounds to infinity in binary64. -/
theorem ParseSize_grammar_counterexample :
    (∀ c ∈ (String.mk ('1' :: List.replicate 309 '0')).data, isPlainChar c = true) ∧
      SpecGrammar (String.mk ('1' :: List.replicate 309 '0')) ∧
      (ParseSize (String.mk ('1' :: List.replicate 309 '0'))).2 ≠ none :=
  ⟨by decide, ⟨'1' :: List.replicate 309 '0', [], 0, [], by decide, by decide, by decide,
    by decide⟩, by decide⟩

/-- C7 (amended): on an input made of decimal digits, points, space characters
and ASCII letters only, if `ParseSize` succeeds then the whole input is one or
more digits, optionally a point and one or more digits, then zero or more
spaces, then one of the tokens `""`, `B`, `K`, `KB`, `M`, `MB`, `G`, `GB`, `T`,
`TB`, `P`, `PB` in any letter case, and the number is below `2^1024 - 2^970`.
Conversely `ParseSize` succeeds on every such input whose number is below
`2^1024 - 2^970` and whose token has its `B`, if any, in upper case.  It fails
on the empty string, `.5`, `1.`, `1e5`, `1KBB`, `1BK`, `K`, `1 2` and `1K 2`. -/
theorem ParseSize_succeeds_grammar :
    (∀ s : String, (∀ c ∈ s.data, isPlainChar c = true) → (ParseSize s).2 = none →
      ∃ (ip fp : List Char) (k : Nat) (un : List Char), isDigits ip = true ∧
        isFractionText fp = true ∧ ToUpper (String.mk un) ∈ unitTokens ∧
        s.data = ip ++ fp ++ List.replicate k ' ' ++ un ∧
        decimalValue ip fp < (2 : ℚ) ^ (1024 : Int) - (2 : ℚ) ^ (970 : Int)) ∧
    (∀ (ip fp un : List Char) (k : Nat), isDigits ip = true → isFractionText fp = true →
      isUnitText un = true →
      decimalValue ip fp < (2 : ℚ) ^ (1024 : Int) - (2 : ℚ) ^ (970 : Int) →
      (ParseSize (String.mk (ip ++ fp ++ List.replicate k ' ' ++ un))).2 = none) ∧
    (ParseSize "").2 ≠ none ∧ (ParseSize ".5").2 ≠ none ∧ (ParseSize "1.").2 ≠ none ∧
    (ParseSize "1e5").2 ≠ none ∧ (ParseSize "1KBB").2 ≠ none ∧ (ParseSize "1BK").2 ≠ none ∧
    (ParseSize "K").2 ≠ none ∧ (ParseSize "1 2").2 ≠ none ∧ (ParseSize "1K 2").2 ≠ none := by
  refine ⟨ParseSize_success_grammar, ?_, by decide, by decide, by decide, by decide,
    by decide, by decide, by decide, by decide, by decide⟩
  intro ip fp un k hip hfp hun hlt
  exact (ParseSize_succeeds_iff hip hfp (isSpaces_replicate k) hun).2 hlt

theorem ParseSize_succeeds_grammar_witness :
    (∀ c ∈ ("1.5 kB" : String).data, isPlainChar c = true) ∧ (ParseSize "1.5 kB").2 = none ∧
      (∃ (ip fp : List Char) (k : Nat) (un : List Char), isDigits ip = true ∧
        isFractionText fp = true ∧ ToUpper (String.mk un) ∈ unitTokens ∧
        ("1.5 kB" : String).data = ip ++ fp ++ List.replicate k ' ' ++ un ∧
        decimalValue ip fp < (2 : ℚ) ^ (1024 : Int) - (2 : ℚ) ^ (970 : Int)) ∧
      (ParseSize (String.mk (['1'] ++ ['.', '5'] ++ List.replicate 1 ' ' ++ ['k', 'B']))).2 =
        none :=
  ⟨by decide, by decide,
    ParseSize_succeeds_grammar.1 "1.5 kB" (by decide) (by decide),
    ParseSize_succeeds_grammar.2.1 ['1'] ['.', '5'] ['k', 'B'] 1 (by decide) (by decide)
      (by decide)
      (by
        rw [decimalValue_one_five]
        have h : (2 : ℚ) ^ (971 : Int) ≤ (2 : ℚ) ^ (1024 : Int) - (2 : ℚ) ^ (970 : Int) := by
          have a : (2 : ℚ) ^ (1024 : Int) = 2 ^ (53 : Int) * (2 : ℚ) ^ (971 : Int) := by
            rw [← zpow_add₀ (by norm_num)]; norm_num
          have b : (2 : ℚ) ^ (971 : Int) = 2 * (2 : ℚ) ^ (970 : Int) := by
            rw [show (971 : Int) = 1 + 970 by norm_num, zpow_add₀ (by norm_num)]; norm_num
          have c : (0 : ℚ) < (2 : ℚ) ^ (970 : Int) := by positivity
          rw [a, b]
          nlinarith
        have h1 : (1 : ℚ) ≤ (2 : ℚ) ^ (971 : Int) := one_le_zpow₀ (by norm_num) (by norm_num)
        have h2 : (2 : ℚ) ≤ (2 : ℚ) ^ (971 : Int) := by
          have := zpow_le_zpow_right₀ (show (1 : ℚ) ≤ 2 by norm_num)
            (show (1 : Int) ≤ 971 by norm_num)
          simpa using this
        linarith)⟩


/-- C8: a signed number is never accepted.  On every input whose first
character is `-` or `+`, `ParseSize` returns the count 0 and the error
`invalid size: ` followed by the input. -/
theorem ParseSize_signed (s : String) (c : Char) (t : List Char) (hs : s.data = c :: t)
    (hc : c = '-' ∨ c = '+') : ParseSize s = (0, some ("invalid size: " ++ s)) := by
  apply ParseSize_no_match
  have hd : isDigit c = false := by
    rcases hc with h | h <;> subst h <;> decide
  unfold FindStringSubmatch
  simp [hs, List.takeWhile_cons, hd]

theorem ParseSize_signed_witness :
    ("-2048" : String).data = '-' :: ['2', '0', '4', '8'] ∧ ('-' = '-' ∨ '-' = '+') ∧
      ParseSize "-2048" = (0, some ("invalid size: " ++ "-2048")) :=
  ⟨by decide, by decide, ParseSize_signed "-2048" '-' ['2', '0', '4', '8'] (by decide)
    (by decide)⟩

/-- C9 (counterexample): `1XB` is rejected with the error `invalid size: 1XB`,
not with the error `invalid size suffix: XB`. -/
theorem ParseSize_1XB_counterexample :
    ParseSize "1XB" = (0, some "invalid size: 1XB") ∧
      (ParseSize "1XB").2 ≠ some ("invalid size suffix: " ++ "XB") := by
  decide

/-- C9 (amended): `ParseSize` rejects `1XB` with the error `invalid size: 1XB`,
and on no input does it return the error `invalid size suffix: ` followed by a
text: an input whose unit is not a recognised token already fails the grammar
check. -/
theorem ParseSize_no_suffix_error :
    ParseSize "1XB" = (0, some ("invalid size: " ++ "1XB")) ∧
      ∀ s t : String, (ParseSize s).2 ≠ some ("invalid size suffix: " ++ t) := by
  refine ⟨by decide, ?_⟩
  intro s t h
  rcases ParseSize_error_form s with e | e
  · rw [e] at h
    exact prefix_ne s t (Option.some.inj h)
  · rw [e] at h
    exact Option.noConfusion h

/-- C10: no partial success.  On every input on which `ParseSize` returns an
error, the count returned is 0 and the message is `invalid size: ` followed by
the input as it was given. -/
theorem ParseSize_error_total (s : String) (h : (ParseSize s).2 ≠ none) :
    ParseSize s = (0, some ("invalid size: " ++ s)) := by
  rcases ParseSize_error_form s with e | e
  · exact e
  · exact absurd e h

theorem ParseSize_error_total_witness :
    (ParseSize "invalid").2 ≠ none ∧
      ParseSize "invalid" = (0, some ("invalid size: " ++ "invalid")) :=
  ⟨by decide, ParseSize_error_total "invalid" (by decide)⟩



/-- C11 (counterexample): a tab between number and unit, and a line feed after
the number, are accepted, although neither is a digit, a point, a space
character or one of the letters `K`, `M`, `G`, `T`, `P`, `B`. -/
theorem ParseSize_tab_counterexample :
    ParseSize "1\tKB" = (1024, none) ∧ ParseSize "1\n" = (1, none) ∧
      '\t' ∈ ("1\tKB" : String).data ∧ '\n' ∈ ("1\n" : String).data := by
  decide

/-- C11 (amended): any white space may separate number and unit.  `ParseSize`
fails, with the error `invalid size: ` and the input, on every input that
contains a character other than a decimal digit, a point, a white-space
character (space, tab, line feed, vertical tab, form feed, carriage return) or
one of the letters `K`, `M`, `G`, `T`, `P`, `B` in either case. -/
theorem ParseSize_foreign_char (s : String) (c : Char) (hc : c ∈ s.data)
    (h1 : isDigit c = false) (h2 : c ≠ '.') (h3 : isSpace c = false)
    (h4 : isUnitLetter c = false) (h5 : c ≠ 'B') (_h6 : c ≠ 'b') :
    ParseSize s = (0, some ("invalid size: " ++ s)) := by
  rcases ParseSize_error_form s with e | e
  · exact e
  · exfalso
    obtain ⟨ip, fp, ws, un, hip, hfp, hws, hun, hs, _⟩ :=
      FindStringSubmatch_sound s (ParseSize_success_match e)
    rw [hs] at hc
    simp only [List.mem_append] at hc
    rcases hc with ((hc | hc) | hc) | hc
    · have := all_of_isDigits hip c hc
      rw [h1] at this
      exact Bool.noConfusion this
    · rcases isFractionText_mem hfp c hc with a | a
      · exact h2 a
      · rw [h1] at a
        exact Bool.noConfusion a
    · have := all_of_isSpaces hws c hc
      rw [h3] at this
      exact Bool.noConfusion this
    · rcases isUnitText_mem hun c hc with a | a
      · exact h5 a
      · rw [h4] at a
        exact Bool.noConfusion a

theorem ParseSize_foreign_char_witness :
    'X' ∈ ("1XB" : String).data ∧ isDigit 'X' = false ∧ 'X' ≠ '.' ∧ isSpace 'X' = false ∧
      isUnitLetter 'X' = false ∧ 'X' ≠ 'B' ∧ 'X' ≠ 'b' ∧
      ParseSize "1XB" = (0, some ("invalid size: " ++ "1XB")) :=
  ⟨by decide, by decide, by decide, by decide, by decide, by decide, by decide,
    ParseSize_foreign_char "1XB" 'X' (by decide) (by decide) (by decide) (by decide)
      (by decide) (by decide) (by decide)⟩

/-- C12 (counterexample): for the least `int64` the absolute value is
`2^63 ≥ 1024^5`, yet the text ends in ` B` and not in ` PB`. -/
theorem SizeString_min_counterexample :
    SizeString (-2 ^ 63) = "-9223372036854775808 B" ∧ endsIn (SizeString (-2 ^ 63)) " B" ∧
      ¬ endsIn (SizeString (-2 ^ 63)) " PB" ∧ (1024 : Int) ^ 5 ≤ |(-2 ^ 63 : Int)| := by
  refine ⟨by decide, ?_, ?_, by decide⟩
  · have e : SizeString (-2 ^ 63) = "-9223372036854775808" ++ " B" := by decide
    rw [e]
    exact endsIn_same _ _
  · have e : SizeString (-2 ^ 63) = "-9223372036854775808" ++ " B" := by decide
    rw [e]
    exact endsIn_other _ _ _ (by decide) (by decide)

/-- C12 (amended): for every `Size` `s` other than the least `int64`, the unit
is chosen from the absolute value `|s|`: the text ends in ` B` iff
`|s| < 1024`, in ` KB` iff `1024 ≤ |s| < 1024^2`, in ` MB` iff
`1024^2 ≤ |s| < 1024^3`, in ` GB` iff `1024^3 ≤ |s| < 1024^4`, in ` TB` iff
`1024^4 ≤ |s| < 1024^5`, and in ` PB` iff `1024^5 ≤ |s|`. -/
theorem SizeString_unit (s : Int) (h1 : -2 ^ 63 < s) (h2 : s < 2 ^ 63) :
    (endsIn (SizeString s) " B" ↔ |s| < 1024) ∧
    (endsIn (SizeString s) " KB" ↔ 1024 ≤ |s| ∧ |s| < 1024 ^ 2) ∧
    (endsIn (SizeString s) " MB" ↔ 1024 ^ 2 ≤ |s| ∧ |s| < 1024 ^ 3) ∧
    (endsIn (SizeString s) " GB" ↔ 1024 ^ 3 ≤ |s| ∧ |s| < 1024 ^ 4) ∧
    (endsIn (SizeString s) " TB" ↔ 1024 ^ 4 ≤ |s| ∧ |s| < 1024 ^ 5) ∧
    (endsIn (SizeString s) " PB" ↔ 1024 ^ 5 ≤ |s|) := by
  obtain ⟨b0, b1, b2, b3, b4, b5⟩ := SizeString_bracket s h1 h2
  have hab : |s| = (s.natAbs : Int) := Int.abs_eq_natAbs s
  rw [hab]
  have yes : ∀ x t : String, endsIn (x ++ t) t := endsIn_same
  have no := endsIn_other
  rcases Nat.lt_or_ge s.natAbs 1024 with c0 | c0
  · rw [b0 c0]
    refine ⟨⟨fun _ => by omega, fun _ => yes _ _⟩, ?_, ?_, ?_, ?_, ?_⟩ <;>
      exact ⟨fun h => absurd h (no _ _ _ (by decide) (by decide)), fun h => by omega⟩
  rcases Nat.lt_or_ge s.natAbs (1024 ^ 2) with c1 | c1
  · rw [b1 c0 c1]
    refine ⟨?_, ⟨fun _ => by omega, fun _ => yes _ _⟩, ?_, ?_, ?_, ?_⟩ <;>
      exact ⟨fun h => absurd h (no _ _ _ (by decide) (by decide)), fun h => by omega⟩
  rcases Nat.lt_or_ge s.natAbs (1024 ^ 3) with c2 | c2
  · rw [b2 c1 c2]
    refine ⟨?_, ?_, ⟨fun _ => by omega, fun _ => yes _ _⟩, ?_, ?_, ?_⟩ <;>
      exact ⟨fun h => absurd h (no _ _ _ (by decide) (by decide)), fun h => by omega⟩
  rcases Nat.lt_or_ge s.natAbs (1024 ^ 4) with c3 | c3
  · rw [b3 c2 c3]
    refine ⟨?_, ?_, ?_, ⟨fun _ => by omega, fun _ => yes _ _⟩, ?_, ?_⟩ <;>
      exact ⟨fun h => absurd h (no _ _ _ (by decide) (by decide)), fun h => by omega⟩
  rcases Nat.lt_or_ge s.natAbs (1024 ^ 5) with c4 | c4
  · rw [b4 c3 c4]
    refine ⟨?_, ?_, ?_, ?_, ⟨fun _ => by omega, fun _ => yes _ _⟩, ?_⟩ <;>
      exact ⟨fun h => absurd h (no _ _ _ (by decide) (by decide)), fun h => by omega⟩
  · rw [b5 c4]
    refine ⟨?_, ?_, ?_, ?_, ?_, ⟨fun _ => by omega, fun _ => yes _ _⟩⟩ <;>
      exact ⟨fun h => absurd h (no _ _ _ (by decide) (by decide)), fun h => by omega⟩


theorem SizeString_unit_witness :
    (-2 ^ 63 : Int) < 1536 ∧ (1536 : Int) < 2 ^ 63 ∧ SizeString 1536 = "1.50 KB" ∧
    ((endsIn (SizeString 1536) " B" ↔ |(1536 : Int)| < 1024) ∧
    (endsIn (SizeString 1536) " KB" ↔ 1024 ≤ |(1536 : Int)| ∧ |(1536 : Int)| < 1024 ^ 2) ∧
    (endsIn (SizeString 1536) " MB" ↔ 1024 ^ 2 ≤ |(1536 : Int)| ∧ |(1536 : Int)| < 1024 ^ 3) ∧
    (endsIn (SizeString 1536) " GB" ↔ 1024 ^ 3 ≤ |(1536 : Int)| ∧ |(1536 : Int)| < 1024 ^ 4) ∧
    (endsIn (SizeString 1536) " TB" ↔ 1024 ^ 4 ≤ |(1536 : Int)| ∧ |(1536 : Int)| < 1024 ^ 5) ∧
    (endsIn (SizeString 1536) " PB" ↔ 1024 ^ 5 ≤ |(1536 : Int)|)) :=
  ⟨by decide, by decide, by decide, SizeString_unit 1536 (by decide) (by decide)⟩

/-- C13: for every `Size` `s` with `-1024 < s < 1024`, the text is the decimal
representation of `s` (a `-` when `s < 0`, then the digits of `|s|`, no point
and no fraction) followed by ` B`. -/
theorem SizeString_bytes (s : Int) (h1 : -1024 < s) (h2 : s < 1024) :
    SizeString s = (if s < 0 then "-" else "") ++ Nat.repr s.natAbs ++ " B" ∧
      isDigits (Nat.repr s.natAbs).data = true ∧
      digitsValue (Nat.repr s.natAbs).data = s.natAbs := by
  refine ⟨?_, repr_spec s.natAbs⟩
  rw [(SizeString_bracket s (by omega) (by omega)).1 (by omega), FormatInt_spec]

theorem SizeString_bytes_witness :
    SizeString 512 = "512 B" ∧ SizeString 1023 = "1023 B" ∧ SizeString 0 = "0 B" ∧
      SizeString (-7) = "-7 B" ∧ (-1024 : Int) < 512 ∧ (512 : Int) < 1024 ∧
      (SizeString 512 = (if (512 : Int) < 0 then "-" else "") ++
          Nat.repr (512 : Int).natAbs ++ " B" ∧
        isDigits (Nat.repr (512 : Int).natAbs).data = true ∧
        digitsValue (Nat.repr (512 : Int).natAbs).data = (512 : Int).natAbs) :=
  ⟨by decide, by decide, by decide, by decide, by decide, by decide,
    SizeString_bytes 512 (by decide) (by decide)⟩


/-- C14: for every `Size` `s` with `|s| ≥ 1024`, other than the least `int64`,
whose value in the unit of its bracket has at most two decimal places (the
multiplier of the unit divides `100 * s`), the text is that value, written
with exactly two digits after the point and with the sign of `s`, a space and
the two-letter suffix of the unit. -/
theorem SizeString_two_decimals (s : Int) (h1 : -2 ^ 63 < s) (h2 : s < 2 ^ 63)
    (h3 : 1024 ≤ |s|) (hd : ((bracketUnit s.natAbs).1 : Int) ∣ 100 * s) :
    SizeString s =
      (if s < 0 then "-" else "") ++
        twoDecimals (100 * s.natAbs / (bracketUnit s.natAbs).1) ++ " " ++
        (bracketUnit s.natAbs).2 := by
  have hab : |s| = (s.natAbs : Int) := Int.abs_eq_natAbs s
  have h3' : 1024 ≤ s.natAbs := by omega
  have hlt : s.natAbs < 2 ^ 63 := by omega
  have hdn : (bracketUnit s.natAbs).1 ∣ 100 * s.natAbs := by
    have := Int.natCast_dvd.1 hd
    rwa [Int.natAbs_mul] at this
  have hrep : ∃ M E : Nat, M < 2 ^ 53 ∧ s.natAbs = M * 2 ^ E := by
    rcases Nat.lt_or_ge s.natAbs (2 ^ 53) with c | c
    · exact ⟨s.natAbs, 0, c, by simp⟩
    · have hb : (bracketUnit s.natAbs).1 = 1024 ^ 5 := by
        unfold bracketUnit
        rw [if_neg (by omega), if_neg (by omega), if_neg (by omega), if_neg (by omega)]
      rw [hb] at hdn
      have h48 : 2 ^ 48 ∣ s.natAbs := by omega
      clear hdn
      obtain ⟨M, hM⟩ := h48
      have hM' : M < 2 ^ 53 := by
        clear hd hb
        omega
      exact ⟨M, 48, hM', hM.trans (Nat.mul_comm _ _)⟩
  obtain ⟨M, E, hM, hq⟩ := hrep
  rw [SizeString_rounded s M E h1 h2 h3' hM hq]
  obtain ⟨k, hk⟩ := hdn
  have hpos := bracketUnit_pos s.natAbs
  have e1 : roundHalfEven (100 * s.natAbs) (bracketUnit s.natAbs).1 = k := by
    rw [hk, Nat.mul_comm]
    exact roundHalfEven_exact k _ hpos
  have e2 : 100 * s.natAbs / (bracketUnit s.natAbs).1 = k := by
    rw [hk]
    exact Nat.mul_div_cancel_left k hpos
  rw [e1, e2]

theorem SizeString_two_decimals_witness :
    SizeString 1024 = "1.00 KB" ∧ SizeString 1536 = "1.50 KB" ∧
      SizeString 1048576 = "1.00 MB" ∧ SizeString 1125899906842624 = "1.00 PB" ∧
      SizeString (-2048) = "-2.00 KB" ∧
      ((bracketUnit (-2048 : Int).natAbs).1 : Int) ∣ 100 * (-2048) ∧
      SizeString (-2048) =
        (if (-2048 : Int) < 0 then "-" else "") ++
          twoDecimals (100 * (-2048 : Int).natAbs / (bracketUnit (-2048 : Int).natAbs).1) ++
          " " ++ (bracketUnit (-2048 : Int).natAbs).2 :=
  ⟨by decide, by decide, by decide, by decide, by decide, by decide,
    SizeString_two_decimals (-2048) (by decide) (by decide) (by decide) (by decide)⟩


/-- C15: the sign is kept in the number.  For every `Size` `s` the text begins
with `-` if and only if `s < 0`; the `-` is followed at once by a digit of the
number; and the text of a non-negative `s` begins with a digit, so it is never
`-0.00`. -/
theorem SizeString_sign (s : Int) (h1 : -2 ^ 63 ≤ s) (h2 : s < 2 ^ 63) :
    ((SizeString s).data.head? = some '-' ↔ s < 0) ∧
      (s < 0 → ∃ d r, (SizeString s).data = '-' :: d :: r ∧ isDigit d = true) ∧
      (0 ≤ s → ∃ d r, (SizeString s).data = d :: r ∧ isDigit d = true) := by
  obtain ⟨body, rest, hb, ho⟩ := SizeString_shape s h1 h2
  obtain ⟨a, b, c⟩ := signed_head (decide (s < 0)) body rest hb _ ho
  refine ⟨?_, ?_, ?_⟩
  · rw [a, decide_eq_true_eq]
  · intro hs
    exact b (by rw [decide_eq_true_eq]; exact hs)
  · intro hs
    exact c (by rw [decide_eq_false_iff_not]; omega)

theorem SizeString_sign_witness :
    SizeString (-2048) = "-2.00 KB" ∧ (-2 ^ 63 : Int) ≤ -2048 ∧ (-2048 : Int) < 2 ^ 63 ∧
      (((SizeString (-2048)).data.head? = some '-' ↔ (-2048 : Int) < 0) ∧
      ((-2048 : Int) < 0 →
        ∃ d r, (SizeString (-2048)).data = '-' :: d :: r ∧ isDigit d = true) ∧
      ((0 : Int) ≤ -2048 → ∃ d r, (SizeString (-2048)).data = d :: r ∧ isDigit d = true)) :=
  ⟨by decide, by decide, by decide, SizeString_sign (-2048) (by decide) (by decide)⟩


/-- C16: for every `Size` `s` other than the least `int64`, `Abs` is the
mathematical absolute value (`s` if `s ≥ 0`, `-s` otherwise), hence not
negative; for the least `int64` the negation wraps and `Abs` returns `s`
itself, a negative value. -/
theorem Abs_spec :
    (∀ s : Int, -2 ^ 63 < s → s < 2 ^ 63 →
      Abs s = |s| ∧ Abs s = (if 0 ≤ s then s else -s) ∧ 0 ≤ Abs s) ∧
    Abs (-2 ^ 63) = -2 ^ 63 ∧ Abs (-2 ^ 63) < 0 := by
  refine ⟨?_, Abs_min, by decide⟩
  intro s h1 h2
  have h := Abs_of_range s h1 h2
  have hab : |s| = (s.natAbs : Int) := Int.abs_eq_natAbs s
  refine ⟨by rw [h, hab], ?_, by rw [h]; exact Int.natCast_nonneg _⟩
  rw [h]
  split_ifs <;> omega

theorem Abs_spec_witness :
    Abs (-2048) = |(-2048 : Int)| ∧ Abs (-2048) = (if (0 : Int) ≤ -2048 then -2048 else - -2048) ∧
      0 ≤ Abs (-2048) :=
  Abs_spec.1 (-2048) (by decide) (by decide)

/-- C17: `Abs` is idempotent on every `Size`, the least `int64` included. -/
theorem Abs_idempotent (s : Int) (h1 : -2 ^ 63 ≤ s) (h2 : s < 2 ^ 63) :
    Abs (Abs s) = Abs s := by
  unfold Abs wrapInt64
  split_ifs <;> omega

theorem Abs_idempotent_witness :
    (-2 ^ 63 : Int) ≤ -2 ^ 63 ∧ (-2 ^ 63 : Int) < 2 ^ 63 ∧
      Abs (Abs (-2 ^ 63)) = Abs (-2 ^ 63) ∧ Abs (Abs (-5)) = Abs (-5) :=
  ⟨by decide, by decide, Abs_idempotent (-2 ^ 63) (by decide) (by decide),
    Abs_idempotent (-5) (by decide) (by decide)⟩


/-- C18: the unit accessors are exact ratios that keep the sign.  For every
`Size` `s` with `|s| ≤ 2^53` the value of `Kilobytes` times `1024` is `s`, that
of `Megabytes` times `1024^2` is `s`, and so on for `Gigabytes`, `Terabytes` and
`Petabytes`; each accessor is 1024 times the next larger one; and `Bytes` is
`s`. -/
theorem accessors_exact_ratio (s : Int) (h : |s| ≤ 2 ^ 53) :
    (Kilobytes s).toRat * 1024 = s ∧ (Megabytes s).toRat * 1024 ^ 2 = s ∧
      (Gigabytes s).toRat * 1024 ^ 3 = s ∧ (Terabytes s).toRat * 1024 ^ 4 = s ∧
      (Petabytes s).toRat * 1024 ^ 5 = s ∧ Bytes s = s ∧
      (Kilobytes s).toRat = 1024 * (Megabytes s).toRat ∧
      (Megabytes s).toRat = 1024 * (Gigabytes s).toRat ∧
      (Gigabytes s).toRat = 1024 * (Terabytes s).toRat ∧
      (Terabytes s).toRat = 1024 * (Petabytes s).toRat := by
  have hab : |s| = (s.natAbs : Int) := Int.abs_eq_natAbs s
  have hn : s.natAbs ≤ 2 ^ 53 := by omega
  obtain ⟨M, E, hM, hq⟩ := representable_le _ hn
  have hle : s.natAbs ≤ 2 ^ 63 := le_trans hn (by norm_num)
  obtain ⟨f1, f2, f3, f4, f5⟩ := accessors_form s
  have v1 := accessor_toRat s M E 1 hM hq hle (by norm_num)
  have v2 := accessor_toRat s M E 2 hM hq hle (by norm_num)
  have v3 := accessor_toRat s M E 3 hM hq hle (by norm_num)
  have v4 := accessor_toRat s M E 4 hM hq hle (by norm_num)
  have v5 := accessor_toRat s M E 5 hM hq hle (by norm_num)
  rw [← f1] at v1
  rw [← f2] at v2
  rw [← f3] at v3
  rw [← f4] at v4
  rw [← f5] at v5
  rw [v1, v2, v3, v4, v5]
  push_cast
  refine ⟨by ring, by ring, by ring, by ring, by ring, rfl, by ring, by ring, by ring,
    by ring⟩

theorem accessors_exact_ratio_witness :
    |(1048576 : Int)| ≤ 2 ^ 53 ∧ |(-2048 : Int)| ≤ 2 ^ 53 ∧
      (Kilobytes 1048576).toRat * 1024 = ((1048576 : Int) : ℚ) ∧
      (Megabytes 1048576).toRat * 1024 ^ 2 = ((1048576 : Int) : ℚ) ∧
      (Kilobytes (-2048)).toRat * 1024 = ((-2048 : Int) : ℚ) ∧
      (Kilobytes 1048576).toRat = 1024 ∧ (Kilobytes (-2048)).toRat = -2 ∧
      Kilobytes 1048576 = F64.fin false (2 ^ 52) (-42) ∧
      Kilobytes (-2048) = F64.fin true (2 ^ 52) (-51) :=
  ⟨by decide, by decide, (accessors_exact_ratio 1048576 (by decide)).1,
    (accessors_exact_ratio 1048576 (by decide)).2.1,
    (accessors_exact_ratio (-2048) (by decide)).1,
    by
      have h := (accessors_exact_ratio 1048576 (by decide)).1
      push_cast at h
      linarith,
    by
      have h := (accessors_exact_ratio (-2048) (by decide)).1
      push_cast at h
      linarith,
    by decide, by decide⟩


/-- C19: the text of a non-negative `Size` can be parsed.  For every `Size`
`s ≥ 0`, `ParseSize` returns no error on the text of `s`, and exactly `s` when
`0 ≤ s < 1024`; for every `s < 0` it returns an error. -/
theorem ParseSize_SizeString (s : Int) (h1 : -2 ^ 63 ≤ s) (h2 : s < 2 ^ 63) :
    (0 ≤ s → (ParseSize (SizeString s)).2 = none) ∧
      (0 ≤ s → s < 1024 → ParseSize (SizeString s) = (s, none)) ∧
      (s < 0 → (ParseSize (SizeString s)).2 ≠ none) := by
  refine ⟨?_, ParseSize_bytes_text s, ?_⟩
  · intro h0
    rcases Nat.lt_or_ge s.natAbs 1024 with c | c
    · rw [ParseSize_bytes_text s h0 (by omega)]
    · exact ParseSize_large_text s h0 h2 c
  · intro hs
    obtain ⟨body, rest, hb, ho⟩ := SizeString_shape s h1 h2
    obtain ⟨_, b, _⟩ := signed_head (decide (s < 0)) body rest hb _ ho
    obtain ⟨d, r, hd, _⟩ := b (by rw [decide_eq_true_eq]; exact hs)
    rw [ParseSize_head_fail (SizeString s) '-' (d :: r) hd (by decide)]
    simp

theorem ParseSize_SizeString_witness :
    ParseSize (SizeString 1536) = (1536, none) ∧ ParseSize (SizeString 1048575) =
        (1048576, none) ∧
      ParseSize (SizeString 512) = (512, none) ∧
      ParseSize (SizeString (-2048)) = (0, some "invalid size: -2.00 KB") ∧
      (-2 ^ 63 : Int) ≤ 512 ∧ (512 : Int) < 2 ^ 63 ∧
      (((0 : Int) ≤ 512 → (ParseSize (SizeString 512)).2 = none) ∧
      ((0 : Int) ≤ 512 → (512 : Int) < 1024 → ParseSize (SizeString 512) = (512, none)) ∧
      ((512 : Int) < 0 → (ParseSize (SizeString 512)).2 ≠ none)) :=
  ⟨by decide, by decide, by decide, by decide, by decide, by decide,
    ParseSize_SizeString 512 (by decide) (by decide)⟩


/-- C20 (counterexample): `1048575` is below `1024^2`, so its unit is `KB`, and
its value `1023.999…` is shown as `1024.00` although the unit `MB` exists. -/
theorem SizeString_1024_counterexample :
    SizeString 1048575 = "1024.00 KB" ∧ (1024 : Int) ≤ |1048575| ∧
      |(1048575 : Int)| < 1024 ^ 5 := by
  decide

/-- C20 (amended): for every `Size` `s` with `1024 ≤ |s| < 1024^5` the number
displayed, that is the value in the unit of the bracket rounded to two decimal
places, is at least `1.00` and at most `1024.00`: the text is the sign, the
hundredths `R` with `100 ≤ R ≤ 102400` written with two decimal places, a
space and the suffix of the unit. -/
theorem SizeString_displayed_range (s : Int) (h1 : 1024 ≤ |s|) (h2 : |s| < 1024 ^ 5) :
    ∃ R : Nat, 100 ≤ R ∧ R ≤ 102400 ∧
      R = roundHalfEven (100 * s.natAbs) (bracketUnit s.natAbs).1 ∧
      SizeString s =
        (if s < 0 then "-" else "") ++ twoDecimals R ++ " " ++ (bracketUnit s.natAbs).2 := by
  have hab : |s| = (s.natAbs : Int) := Int.abs_eq_natAbs s
  have h1' : 1024 ≤ s.natAbs := by omega
  have h2' : s.natAbs < 1024 ^ 5 := by omega
  have hS := SizeString_rounded s s.natAbs 0 (by omega) (by omega) h1' (by omega) (by simp)
  obtain ⟨j, _, _, hu, lo, hi, _⟩ := SizeString_large s (by omega) (by omega) h1'
  have hpos := bracketUnit_pos s.natAbs
  have hj : j < 5 := by
    by_contra hc
    have : j = 5 := by omega
    rw [this] at lo
    omega
  have hi' := hi hj
  rw [pow_succ, ← hu] at hi'
  rw [← hu] at lo
  refine ⟨_, ?_, ?_, rfl, hS⟩
  · apply roundHalfEven_ge_of_le _ _ _ hpos
    exact Nat.mul_le_mul_left 100 lo
  · apply roundHalfEven_le _ _ _ hpos
    have : 2 * (100 * s.natAbs) < 2 * (100 * ((bracketUnit s.natAbs).1 * 1024)) := by omega
    calc 2 * (100 * s.natAbs) < 2 * (100 * ((bracketUnit s.natAbs).1 * 1024)) := this
      _ = 2 * 102400 * (bracketUnit s.natAbs).1 := by ring
      _ ≤ (2 * 102400 + 1) * (bracketUnit s.natAbs).1 := Nat.mul_le_mul_right _ (by norm_num)

theorem SizeString_displayed_range_witness :
    (1024 : Int) ≤ |1048575| ∧ |(1048575 : Int)| < 1024 ^ 5 ∧
    ∃ R : Nat, 100 ≤ R ∧ R ≤ 102400 ∧
      R = roundHalfEven (100 * (1048575 : Int).natAbs) (bracketUnit (1048575 : Int).natAbs).1 ∧
      SizeString 1048575 =
        (if (1048575 : Int) < 0 then "-" else "") ++ twoDecimals R ++ " " ++
          (bracketUnit (1048575 : Int).natAbs).2 :=
  ⟨by decide, by decide, SizeString_displayed_range 1048575 (by decide) (by decide)⟩

end Size
